import Mathlib

/-!
Shallow embedding of `final_submission.py` (elitist Ant Colony Optimisation for
the TSP) and a verification of the specification's claims about it.

Modelling conventions:
* Python/NumPy floats are modelled by `ℚ` (exact arithmetic); matrices are
  total functions `ℕ → ℕ → ℚ`.
* The module-level tunables `RHO, Q, ALPHA, BETA, K, ITER, ELITIST,
  ELITISTFACTOR` are gathered into a `Config` record; `defaultConfig` holds
  the literal values of the Python module.
* Randomness (`random.randint` starting cities and `random.random()` draws)
  is modelled by two pre-drawn streams, consumed in program order.
* NumPy division by zero of the transition normalisation produces NaN, and
  every comparison `CP >= rand` against NaN is false, so the selection loop
  never fires and the surrounding `while` loop runs forever.  In the
  embedding, a construction step whose desirability sum is zero selects no
  city (`none`) and the `while` loop is driven by the finite stream of
  pre-drawn random values, returning `none` when the stream is exhausted;
  thus `none` models a run of the source that never completes.
-/

/-- Configuration record for the module-level constants of the Python file
(lines 22..29). -/
structure Config where
  RHO : ℚ
  Q : ℚ
  ALPHA : ℕ
  BETA : ℕ
  K : ℕ
  ITER : ℕ
  ELITIST : Bool
  ELITISTFACTOR : ℚ

/-- Literal values assigned to the constants in the Python module:
`RHO = 0.5`, `Q = 5`, `ALPHA = 1`, `BETA = 3`, `K = 50`, `ITER = 200`,
`ELITIST = False`, `ELITISTFACTOR = 0.20`. -/
def defaultConfig : Config :=
  ⟨1 / 2, 5, 1, 3, 50, 200, false, 1 / 5⟩

/-- Square matrices of rationals, indexed by vertex number. -/
abbrev Mat := ℕ → ℕ → ℚ

/-- Python's built-in `round` to an integer: round half to even
(banker's rounding), as CPython does. -/
def pyRound (q : ℚ) : ℤ :=
  if q - ⌊q⌋ < 1 / 2 then ⌊q⌋
  else if 1 / 2 < q - ⌊q⌋ then ⌊q⌋ + 1
  else if 2 ∣ ⌊q⌋ then ⌊q⌋ else ⌊q⌋ + 1

/-- Python's `round(x, 4)`: round half to even at the fourth decimal place. -/
def round4 (q : ℚ) : ℚ := (pyRound (q * 10000) : ℚ) / 10000

/-- NumPy true division of the scalar `q` by the integer scalar `z`
(`d[i][j]` is a NumPy integer).  NumPy does not raise on a zero divisor: it
emits a RuntimeWarning and produces an IEEE infinity, modelled here by `⊤`
of `WithTop ℚ` (the dividends appearing in the program are positive).
Python's `round(x, 4)` maps an infinity to itself. -/
def pyDiv (q : ℚ) (z : ℤ) : WithTop ℚ :=
  if z = 0 then ⊤ else ((q / (z : ℚ) : ℚ) : WithTop ℚ)

/-- Application of `round4` under a possibly-infinite value. -/
def round4T : WithTop ℚ → WithTop ℚ
  | ⊤ => ⊤
  | (q : ℚ) => ((round4 q : ℚ) : WithTop ℚ)

/-- Embedding of `calculate_heuristic` (lines 66..87).  The Python body reads
the module-level `numVertices`, which at the only call site equals the
`numVerticies` argument, so the embedding takes it as the parameter.  The
matrix starts as `np.ones`, and every entry with both indices below
`numVertices` is overwritten: `round(Q / d[i][j], 4)` off the diagonal and
`0` on it. -/
def calculate_heuristic (cfg : Config) (d : ℕ → ℕ → ℤ) (numVertices : ℕ) :
    ℕ → ℕ → WithTop ℚ :=
  fun i j =>
    if i < numVertices ∧ j < numVertices then
      if i ≠ j then round4T (pyDiv cfg.Q (d i j)) else 0
    else 1

/-- Embedding of `calculate_path_cost` (lines 89..108): the sum of
`matrix[path[k]][path[k+1]]` over consecutive pairs of the path. -/
def calculate_path_cost (d : ℕ → ℕ → ℤ) (path : List ℕ) : ℤ :=
  ((path.zip path.tail).map fun e => d e.1 e.2).sum

/-- Pointwise update of one matrix entry (NumPy `T[u][v] = x`). -/
def updEntry (T : Mat) (u v : ℕ) (x : ℚ) : Mat :=
  fun i j => if i = u ∧ j = v then x else T i j

/-- Net amount added to `T[path[j]][path[j+1]]` for one ant and one edge of
the deposit loop of `update_pheremone`: `1/cost`, plus
`cost * ELITISTFACTOR` when this ant is elitist and `ELITIST` is on
(lines 130..136). -/
def depositAmount (cfg : Config) (cost : ℚ) (isElit : Bool) : ℚ :=
  1 / cost + (if isElit && cfg.ELITIST then cost * cfg.ELITISTFACTOR else 0)

/-- Inner deposit loop of `update_pheremone` (lines 132..136), iterating the
edge positions `js` (the Python loop runs `for j in range(numVertices - 1)`).
Per position the code adds `delta = 1/cost`, then, when the ant is elitist
and `ELITIST` is on, additionally `cost * ELITISTFACTOR`. -/
def depositSteps (cfg : Config) (path : List ℕ) (cost : ℚ) (isElit : Bool) :
    List ℕ → Mat → Mat
  | [], T => T
  | j :: js, T =>
    let u := path.getD j 0
    let v := path.getD (j + 1) 0
    let T1 := updEntry T u v (T u v + 1 / cost)
    let T2 := if isElit && cfg.ELITIST then
        updEntry T1 u v (T1 u v + cost * cfg.ELITISTFACTOR)
      else T1
    depositSteps cfg path cost isElit js T2

/-- Outer deposit loop of `update_pheremone` (lines 128..136):
`for i in range(len(allPaths))`, carrying the running ant index `i` used to
look up `pathCosts[i]` and test membership in `elitistIndex`. -/
def depositAnts (cfg : Config) (pathCosts : List ℚ) (numVertices : ℕ)
    (elitistIndex : List ℕ) : List (List ℕ) → ℕ → Mat → Mat
  | [], _, T => T
  | path :: rest, i, T =>
    depositAnts cfg pathCosts numVertices elitistIndex rest (i + 1)
      (depositSteps cfg path (pathCosts.getD i 0) (decide (i ∈ elitistIndex))
        (List.range (numVertices - 1)) T)

/-- Embedding of `update_pheremone` (lines 110..136): evaporate every entry
by the factor `(1 - RHO)`, then run the deposit loops.  Python's
`1/pathCosts[i]` raises ZeroDivisionError on a zero cost; in `ℚ` the term is
`0`, and every claim about this function assumes nonzero costs. -/
def update_pheremone (cfg : Config) (T : Mat) (allPaths : List (List ℕ))
    (pathCosts : List ℚ) (numVertices : ℕ) (elitistIndex : List ℕ) : Mat :=
  depositAnts cfg pathCosts numVertices elitistIndex allPaths 0
    (fun i j => (1 - cfg.RHO) * T i j)

/-- Number of positions `j` among the first `m` edge slots of `path` whose
edge `(path[j], path[j+1])` is exactly `(u, v)`. -/
def edgeCount (path : List ℕ) (u v : ℕ) (m : ℕ) : ℕ :=
  ((List.range m).filter fun j =>
    decide (path.getD j 0 = u ∧ path.getD (j + 1) 0 = v)).length

/-- Total pheromone deposited on entry `(u, v)` by the ants `paths`, the ant
index starting at `i`: for each ant, the number of matching edge slots among
the first `numVertices - 1`, times that ant's per-edge deposit amount. -/
def totalDeposit (cfg : Config) (pathCosts : List ℚ) (numVertices : ℕ)
    (elitistIndex : List ℕ) (u v : ℕ) : List (List ℕ) → ℕ → ℚ
  | [], _ => 0
  | path :: rest, i =>
    (edgeCount path u v (numVertices - 1) : ℚ) *
        depositAmount cfg (pathCosts.getD i 0) (decide (i ∈ elitistIndex))
      + totalDeposit cfg pathCosts numVertices elitistIndex u v rest (i + 1)

/-- Total elitist bonus deposited on entry `(u, v)` by the ants `paths`, ant
index starting at `i`: ants in `elitistIndex` contribute their matching edge
slot count times `cost * ELITISTFACTOR`, others contribute nothing. -/
def bonusDeposit (cfg : Config) (pathCosts : List ℚ) (numVertices : ℕ)
    (elitistIndex : List ℕ) (u v : ℕ) : List (List ℕ) → ℕ → ℚ
  | [], _ => 0
  | path :: rest, i =>
    (if i ∈ elitistIndex then
        (edgeCount path u v (numVertices - 1) : ℚ) *
          (pathCosts.getD i 0 * cfg.ELITISTFACTOR)
      else 0)
      + bonusDeposit cfg pathCosts numVertices elitistIndex u v rest (i + 1)

/-- Embedding of the elitist selection (lines 219..221):
`sorted(range(len(pathCosts)), key=lambda i: pathCosts[i])[:int(round(ELITISTFACTOR * K))]`.
Python's `sorted` is a stable sort by the cost key, matching `mergeSort`. -/
def elitistSelect (cfg : Config) (pathCosts : List ℤ) : List ℕ :=
  ((List.range pathCosts.length).mergeSort fun a b =>
      decide (pathCosts.getD a 0 ≤ pathCosts.getD b 0)).take
    (pyRound (cfg.ELITISTFACTOR * (cfg.K : ℚ))).toNat

/-- Masking of the per-ant heuristic copy (line 187): `H[:, path] = 0` zeroes
the columns of every visited vertex; the mutation is cumulative over the
loop, so the matrix read at a step equals the fresh copy with the columns of
the current `path` zeroed. -/
def maskedH (H : Mat) (path : List ℕ) : Mat :=
  fun i j => if j ∈ path then 0 else H i j

/-- Cumulative-probability selection loop (lines 201..208): walk the indices
`l` accumulating `CP += P[i]` and return the first `i` with `CP >= rand`;
`none` when no index fires. -/
def cumulativeSelect (P : ℕ → ℚ) (rand : ℚ) : List ℕ → ℚ → Option ℕ
  | [], _ => none
  | i :: rest, CP =>
    if rand ≤ CP + P i then some i else cumulativeSelect P rand rest (CP + P i)

/-- One transition step (lines 188..208): desirability
`N[j] = T[curr][j] ** ALPHA * H[curr][j] ** BETA`, normalisation
`P = N / den` with `den = sum(N)`, then cumulative selection against the
draw `r`.  When `den = 0` NumPy produces NaN probabilities and the
comparison `CP >= rand` is always false, so no city is selected: `none`. -/
def nextCity (cfg : Config) (T H : Mat) (curr n : ℕ) (r : ℚ) : Option ℕ :=
  let N : ℕ → ℚ := fun j => T curr j ^ cfg.ALPHA * H curr j ^ cfg.BETA
  let den : ℚ := ((List.range n).map N).sum
  if den = 0 then none
  else cumulativeSelect (fun j => N j / den) r (List.range n) 0

/-- Construction `while` loop of one ant (lines 183..211).  Each pass
consumes one `random.random()` draw; when the transition step selects a city
it is appended and becomes `curr`, otherwise the state is unchanged and the
loop retries (the source would retry forever; the embedding stops with
`none` when the finite stream of pre-drawn values runs out).  On exit the
starting city is appended to close the cycle, and the unconsumed draws are
returned. -/
def buildPath (cfg : Config) (T H1 : Mat) (n start : ℕ) :
    List ℚ → List ℕ → ℕ → Option (List ℕ × List ℚ)
  | draws, path, curr =>
    if path.length = n then some (path ++ [start], draws)
    else
      match draws with
      | [] => none
      | r :: rest =>
        match nextCity cfg T (maskedH H1 path) curr n r with
        | none => buildPath cfg T H1 n start rest path curr
        | some c => buildPath cfg T H1 n start rest (path ++ [c]) c

/-- One full ant (lines 168..211): fresh heuristic copy, random starting
city, construction loop from the singleton path `[start]`. -/
def constructPath (cfg : Config) (T H1 : Mat) (n start : ℕ)
    (draws : List ℚ) : Option (List ℕ × List ℚ) :=
  buildPath cfg T H1 n start draws [start] start

/-- Colony loop of one iteration (lines 167..212): `K` ants in sequence,
each consuming one starting-city draw and then transition draws; the list of
completed paths is returned with the unconsumed streams. -/
def runAnts (cfg : Config) (T H1 : Mat) (n : ℕ) :
    ℕ → List ℕ → List ℚ → Option (List (List ℕ) × List ℕ × List ℚ)
  | 0, starts, draws => some ([], starts, draws)
  | k + 1, starts, draws =>
    match starts with
    | [] => none
    | s :: starts2 =>
      match constructPath cfg T H1 n s draws with
      | none => none
      | some (p, draws2) =>
        match runAnts cfg T H1 n k starts2 draws2 with
        | none => none
        | some (ps, starts3, draws3) => some (p :: ps, starts3, draws3)

/-- Mutable best/worst/average state of `ant_colony_optimisation`
(lines 154..158), in declaration order. -/
structure AcoState where
  bestPathCost : ℤ
  worsePathCost : ℤ
  worstPath : List ℕ
  bestPath : List ℕ
  avg : ℤ
deriving DecidableEq, Repr

/-- Initial tracker state (lines 154..158): `bestPathCost = 1000000000`,
`worsePathCost = 10`, empty paths, `avg = 0`. -/
def initState : AcoState :=
  ⟨1000000000, 10, [], [], 0⟩

/-- Best-tracker update (lines 235..237): strict `<` against the running
best cost. -/
def updateBest (st : AcoState) (bCost : ℤ) (bPath : List ℕ) : AcoState :=
  if bCost < st.bestPathCost then
    ⟨bCost, st.worsePathCost, st.worstPath, bPath, st.avg⟩
  else st

/-- Worst-tracker update (lines 242..244): strict `>` against the running
worst cost. -/
def updateWorst (st : AcoState) (wCost : ℤ) (wPath : List ℕ) : AcoState :=
  if wCost > st.worsePathCost then
    ⟨st.bestPathCost, wCost, wPath, st.bestPath, st.avg⟩
  else st

/-- One iteration of the main loop (lines 161..244): run `K` ants, score
every path, accumulate the iteration's total cost into `avg`, select the
elitist ants when `ELITIST` is on, update the pheromone matrix, sort the
`(cost, path)` pairs stably by cost, and feed the first and last pair to the
best/worst trackers.  Python indexes `sorted_pairs[0]` and
`sorted_pairs[-1]`, which raises IndexError when `K = 0`; the embedding
returns `none` there. -/
def acoIteration (cfg : Config) (d : ℕ → ℕ → ℤ) (H1 : Mat) (n : ℕ) (T : Mat)
    (st : AcoState) (starts : List ℕ) (draws : List ℚ) :
    Option (Mat × AcoState × List ℕ × List ℚ) :=
  match runAnts cfg T H1 n cfg.K starts draws with
  | none => none
  | some (allPaths, starts2, draws2) =>
    let pathCosts := allPaths.map (calculate_path_cost d)
    let st1 : AcoState :=
      ⟨st.bestPathCost, st.worsePathCost, st.worstPath, st.bestPath,
        st.avg + pathCosts.sum⟩
    let elitistIndex := if cfg.ELITIST then elitistSelect cfg pathCosts else []
    let T2 := update_pheremone cfg T allPaths
      (pathCosts.map fun (c : ℤ) => (c : ℚ)) n elitistIndex
    match (pathCosts.zip allPaths).mergeSort (fun a b => decide (a.1 ≤ b.1)) with
    | [] => none
    | hd :: tl =>
      let w := (hd :: tl).getLast (List.cons_ne_nil hd tl)
      some (T2, updateWorst (updateBest st1 hd.1 hd.2) w.1 w.2, starts2, draws2)

/-- Main iteration loop (line 161): `for x in range(ITER)`, threading the
pheromone matrix, the tracker state and the random streams. -/
def acoLoop (cfg : Config) (d : ℕ → ℕ → ℤ) (H1 : Mat) (n : ℕ) :
    ℕ → Mat → AcoState → List ℕ → List ℚ → Option AcoState
  | 0, _, st, _, _ => some st
  | m + 1, T, st, starts, draws =>
    match acoIteration cfg d H1 n T st starts draws with
    | none => none
    | some (T2, st2, starts2, draws2) => acoLoop cfg d H1 n m T2 st2 starts2 draws2

/-- Return tuple of `ant_colony_optimisation` (line 247). -/
structure RunResult where
  bestPathCost : ℤ
  bestPath : List ℕ
  worsePathCost : ℤ
  worstPath : List ℕ
  avg : ℤ
deriving DecidableEq, Repr

/-- Aggregate average statistic returned at line 247:
`round(avg / K * ITER)`, where `avg` is the running sum of all path costs.
Python evaluates `avg / K * ITER` as `(avg / K) * ITER`. -/
def avgStatistic (cfg : Config) (avg : ℤ) : ℤ :=
  pyRound ((avg : ℚ) / (cfg.K : ℚ) * (cfg.ITER : ℚ))

/-- Embedding of `ant_colony_optimisation` (lines 138..247).  The pheromone
matrix `T` is a module-level global in the source, initialised in
`__main__`; here it is threaded explicitly.  `none` models a run that never
returns (or raises), see the module comment. -/
def ant_colony_optimisation (cfg : Config) (d : ℕ → ℕ → ℤ) (H1 : Mat)
    (n : ℕ) (T : Mat) (starts : List ℕ) (draws : List ℚ) : Option RunResult :=
  match acoLoop cfg d H1 n cfg.ITER T initState starts draws with
  | none => none
  | some st =>
    some ⟨st.bestPathCost, st.bestPath, st.worsePathCost, st.worstPath,
      avgStatistic cfg st.avg⟩

/-- Matrix update at the written entry. -/
theorem updEntry_same (T : Mat) (u v : ℕ) (x : ℚ) : updEntry T u v x u v = x := by
  simp [updEntry]

/-- Matrix update elsewhere. -/
theorem updEntry_other (T : Mat) (a c : ℕ) (x : ℚ) (u v : ℕ)
    (h : ¬(u = a ∧ v = c)) : updEntry T a c x u v = T u v := by
  simp only [updEntry]
  rw [if_neg h]

/-- Effect of one pass of the inner deposit loop on entry `(u, v)`: the
per-edge amount is added when the written edge is `(u, v)`, else nothing. -/
theorem depositStep_entry (cfg : Config) (T : Mat) (a c : ℕ) (cost : ℚ)
    (isElit : Bool) (u v : ℕ) :
    (if isElit && cfg.ELITIST then
        updEntry (updEntry T a c (T a c + 1 / cost)) a c
          (updEntry T a c (T a c + 1 / cost) a c + cost * cfg.ELITISTFACTOR)
      else updEntry T a c (T a c + 1 / cost)) u v
      = T u v + (if a = u ∧ c = v then depositAmount cfg cost isElit else 0) := by
  by_cases hb : (isElit && cfg.ELITIST) = true
  · by_cases hm : a = u ∧ c = v
    · obtain ⟨hu, hv⟩ := hm
      subst hu hv
      simp [hb, updEntry_same, depositAmount]
      ring
    · have hne : ¬(u = a ∧ v = c) := fun h => hm ⟨h.1.symm, h.2.symm⟩
      simp only [hb, if_true, updEntry_other _ _ _ _ _ _ hne, if_neg hm, add_zero]
  · by_cases hm : a = u ∧ c = v
    · obtain ⟨hu, hv⟩ := hm
      subst hu hv
      simp only [Bool.not_eq_true] at hb
      simp [hb, updEntry_same, depositAmount]
    · have hne : ¬(u = a ∧ v = c) := fun h => hm ⟨h.1.symm, h.2.symm⟩
      simp only [Bool.not_eq_true] at hb
      simp only [hb, Bool.false_eq_true, if_false, updEntry_other _ _ _ _ _ _ hne,
        if_neg hm, add_zero]

/-- Pointwise effect of the inner deposit loop: entry `(u, v)` gains the
per-edge amount once for every position in `js` whose edge is `(u, v)`. -/
theorem depositSteps_apply (cfg : Config) (path : List ℕ) (cost : ℚ)
    (isElit : Bool) (js : List ℕ) (T : Mat) (u v : ℕ) :
    depositSteps cfg path cost isElit js T u v =
      T u v + ((js.filter fun j =>
          decide (path.getD j 0 = u ∧ path.getD (j + 1) 0 = v)).length : ℚ) *
        depositAmount cfg cost isElit := by
  induction js generalizing T with
  | nil => simp [depositSteps]
  | cons j js ih =>
    simp only [depositSteps]
    rw [ih, depositStep_entry]
    by_cases hm : path.getD j 0 = u ∧ path.getD (j + 1) 0 = v
    · rw [if_pos hm, List.filter_cons_of_pos (by simpa using hm),
        List.length_cons]
      push_cast
      ring
    · rw [if_neg hm, List.filter_cons_of_neg (by simpa using hm)]
      ring

/-- Pointwise effect of the outer deposit loop: entry `(u, v)` gains the sum
of all ants' deposits on that entry. -/
theorem depositAnts_apply (cfg : Config) (costs : List ℚ) (n : ℕ)
    (eIdx : List ℕ) (paths : List (List ℕ)) (i : ℕ) (T : Mat) (u v : ℕ) :
    depositAnts cfg costs n eIdx paths i T u v =
      T u v + totalDeposit cfg costs n eIdx u v paths i := by
  induction paths generalizing i T with
  | nil => simp [depositAnts, totalDeposit]
  | cons p ps ih =>
    simp only [depositAnts, totalDeposit]
    rw [ih, depositSteps_apply]
    simp only [edgeCount]
    ring

/-- Pointwise decomposition of `update_pheremone`: every entry is first
scaled by `(1 - RHO)` and then receives the total deposit of all ants on
that entry. -/
theorem update_pheremone_apply (cfg : Config) (T : Mat)
    (paths : List (List ℕ)) (costs : List ℚ) (n : ℕ) (eIdx : List ℕ)
    (u v : ℕ) :
    update_pheremone cfg T paths costs n eIdx u v =
      (1 - cfg.RHO) * T u v + totalDeposit cfg costs n eIdx u v paths 0 := by
  simp [update_pheremone, depositAnts_apply]

/-- Entries on no ant's deposited edge receive no deposit. -/
theorem totalDeposit_eq_zero (cfg : Config) (costs : List ℚ) (n : ℕ)
    (eIdx : List ℕ) (u v : ℕ) (paths : List (List ℕ)) (i : ℕ) :
    (∀ p ∈ paths, edgeCount p u v (n - 1) = 0) →
    totalDeposit cfg costs n eIdx u v paths i = 0 := by
  induction paths generalizing i with
  | nil => simp [totalDeposit]
  | cons p ps ih =>
    intro h
    simp only [totalDeposit]
    rw [h p (by simp), ih (i + 1) fun q hq => h q (by simp [hq])]
    simp

/-- With elitism enabled, the total deposit splits into the plain deposits
(the empty elitist set) plus the elitist bonuses. -/
theorem totalDeposit_elitist_split (cfg : Config) (hE : cfg.ELITIST = true)
    (costs : List ℚ) (n : ℕ) (eIdx : List ℕ) (u v : ℕ)
    (paths : List (List ℕ)) (i : ℕ) :
    totalDeposit cfg costs n eIdx u v paths i =
      totalDeposit cfg costs n [] u v paths i +
        bonusDeposit cfg costs n eIdx u v paths i := by
  induction paths generalizing i with
  | nil => simp [totalDeposit, bonusDeposit]
  | cons p ps ih =>
    simp only [totalDeposit, bonusDeposit]
    rw [ih]
    by_cases hm : i ∈ eIdx
    · simp only [hm, if_true, decide_eq_true_eq, depositAmount, hE,
        Bool.and_true, decide_True, Bool.true_and, if_true]
      simp [depositAmount, hm, hE]
      ring
    · simp [depositAmount, hm, hE]
      ring

/-- With elitism disabled, the elitist index set is irrelevant: the total
deposit is that of the empty elitist set. -/
theorem totalDeposit_of_not_elitist (cfg : Config) (hE : cfg.ELITIST = false)
    (costs : List ℚ) (n : ℕ) (eIdx : List ℕ) (u v : ℕ)
    (paths : List (List ℕ)) (i : ℕ) :
    totalDeposit cfg costs n eIdx u v paths i =
      totalDeposit cfg costs n [] u v paths i := by
  induction paths generalizing i with
  | nil => simp [totalDeposit]
  | cons p ps ih =>
    simp only [totalDeposit]
    rw [ih]
    by_cases hm : i ∈ eIdx
    · simp [hm, depositAmount, hE]
    · simp [hm, depositAmount, hE]

/-- Members of the elitist prefix come from the sorted index list. -/
theorem mem_take_mergeSort_range (key : ℕ → ℤ) (m k : ℕ) :
    ∀ i ∈ ((List.range m).mergeSort fun a b => decide (key a ≤ key b)).take k,
      i < m := by
  intro i hi
  have h1 : i ∈ (List.range m).mergeSort fun a b => decide (key a ≤ key b) :=
    List.mem_of_mem_take hi
  exact List.mem_range.mp ((List.mergeSort_perm (List.range m) _).mem_iff.mp h1)

/-- The first `k` elements of the stably sorted index list have keys at most
the key of every index left out. -/
theorem take_mergeSort_lowest (key : ℕ → ℤ) (m k : ℕ) :
    ∀ i ∈ ((List.range m).mergeSort fun a b => decide (key a ≤ key b)).take k,
    ∀ j, j < m →
      j ∉ ((List.range m).mergeSort fun a b => decide (key a ≤ key b)).take k →
      key i ≤ key j := by
  intro i hi j hj hnj
  have htrans : ∀ a b c : ℕ, (decide (key a ≤ key b)) = true →
      (decide (key b ≤ key c)) = true → (decide (key a ≤ key c)) = true := by
    intro a b c hab hbc
    simp only [decide_eq_true_eq] at *
    exact le_trans hab hbc
  have htotal : ∀ a b : ℕ,
      ((decide (key a ≤ key b)) || (decide (key b ≤ key a))) = true := by
    intro a b
    simp only [Bool.or_eq_true, decide_eq_true_eq]
    exact Int.le_total _ _
  have hsorted : List.Pairwise (fun a b => (decide (key a ≤ key b)) = true)
      ((List.range m).mergeSort fun a b => decide (key a ≤ key b)) :=
    List.sorted_mergeSort htrans htotal (List.range m)
  have hmem : j ∈ (List.range m).mergeSort fun a b => decide (key a ≤ key b) :=
    (List.mergeSort_perm (List.range m) _).mem_iff.mpr (List.mem_range.mpr hj)
  rw [← List.take_append_drop k
    ((List.range m).mergeSort fun a b => decide (key a ≤ key b))] at hsorted hmem
  rcases List.mem_append.mp hmem with hjt | hjd
  · exact absurd hjt hnj
  · have := (List.pairwise_append.mp hsorted).2.2 i hi j hjd
    simpa using this

/-- Configuration with elitism enabled (the Python module with
`ELITIST = True`), used by claims about the elitist branch. -/
def cfgElitist : Config :=
  ⟨1 / 2, 5, 1, 3, 50, 200, true, 1 / 5⟩

/-- C1, counterexample to the claim as stated: one ant with cyclic path
`[0, 1, 0]` on two vertices and cost `10`, pheromone matrix all ones,
elitism off.  The closing edge `(1, 0)` of the cyclic path receives no
deposit — the deposit loop runs `for j in range(numVertices - 1)`, touching
only the edge `(0, 1)` — so `T[1][0]` ends at `(1 - RHO) * 1 = 1/2`, not at
`(1 - RHO) * 1 + 1/10` as the claim requires for every consecutive edge of
the cyclic path. -/
theorem C1_counterexample :
    update_pheremone defaultConfig (fun _ _ => (1 : ℚ)) [[0, 1, 0]] [10] 2 [] 1 0
        = 1 / 2 ∧
      (1 / 2 : ℚ) ≠ (1 - defaultConfig.RHO) * 1 + 1 / 10 := by
  constructor
  · rw [update_pheremone_apply]
    norm_num [totalDeposit, edgeCount, depositAmount, defaultConfig, List.range_succ]
  · norm_num [defaultConfig]

/-- C1 (amended): after `update_pheremone`, entry `(u, v)` equals
`(1 - RHO)` times its prior value plus the total deposit of all ants on
`(u, v)`, where each ant deposits `1/cost_i` (plus the elitist bonus when
active) once for every position `j < numVertices - 1` with
`(path[j], path[j+1]) = (u, v)` — the final closing edge of the cyclic path
is not deposited; in particular an entry lying on no ant's deposited edge
ends exactly `(1 - RHO)` times its prior value. -/
theorem C1_update_pheremone_deposit (cfg : Config) (T : Mat)
    (paths : List (List ℕ)) (costs : List ℚ) (n : ℕ) (eIdx : List ℕ)
    (u v : ℕ) :
    update_pheremone cfg T paths costs n eIdx u v =
        (1 - cfg.RHO) * T u v + totalDeposit cfg costs n eIdx u v paths 0 ∧
      ((∀ p ∈ paths, edgeCount p u v (n - 1) = 0) →
        update_pheremone cfg T paths costs n eIdx u v = (1 - cfg.RHO) * T u v) := by
  refine ⟨update_pheremone_apply cfg T paths costs n eIdx u v, fun h => ?_⟩
  rw [update_pheremone_apply, totalDeposit_eq_zero cfg costs n eIdx u v paths 0 h,
    add_zero]

/-- C1, witness: entry `(1, 1)` lies on no deposited edge of the single path
`[0, 1, 0]`, so it ends exactly `(1 - RHO)` times its prior value. -/
theorem C1_update_pheremone_deposit_witness :
    update_pheremone defaultConfig (fun _ _ => (1 : ℚ)) [[0, 1, 0]] [5] 2 [] 1 1
      = (1 - defaultConfig.RHO) * 1 :=
  (C1_update_pheremone_deposit defaultConfig (fun _ _ => (1 : ℚ))
    [[0, 1, 0]] [5] 2 [] 1 1).2 (by decide)

/-- C6, counterexample to the claim as stated: elitism on, one elitist ant
with cyclic path `[0, 1, 2, 0]` on three vertices and cost `10`, pheromone
all ones.  The closing edge `(2, 0)` of the elitist ant's path receives
neither the plain deposit nor the elitist bonus: the entry ends at
`(1 - RHO) * 1 = 1/2`, not at
`(1 - RHO) * 1 + 1/10 + 10 * ELITISTFACTOR` as the claim requires for each
consecutive edge of an elitist ant's path. -/
theorem C6_counterexample :
    update_pheremone cfgElitist (fun _ _ => (1 : ℚ)) [[0, 1, 2, 0]] [10] 3 [0] 2 0
        = 1 / 2 ∧
      (1 / 2 : ℚ) ≠ (1 - cfgElitist.RHO) * 1 + 1 / 10 + 10 * cfgElitist.ELITISTFACTOR := by
  constructor
  · rw [update_pheremone_apply]
    norm_num [totalDeposit, edgeCount, depositAmount, cfgElitist, List.range_succ]
  · norm_num [cfgElitist]

/-- C6 (amended): the elitist set is exactly the `round(ELITISTFACTOR * K)`
lowest-cost ant indices of the iteration (stable sort by cost), and, with
elitism enabled, `update_pheremone` adds on top of the plain update the
bonus `cost_i * ELITISTFACTOR` once for every deposited edge position
`j < numVertices - 1` of each elitist ant's path — the closing edge is
excluded; with elitism disabled, the elitist index set has no effect on any
entry. -/
theorem C6_elitist_bonus (cfg : Config) (costs : List ℤ) (T : Mat)
    (paths : List (List ℕ)) (qcosts : List ℚ) (n : ℕ) (eIdx : List ℕ)
    (u v : ℕ) :
    ((elitistSelect cfg costs).length =
        min (pyRound (cfg.ELITISTFACTOR * (cfg.K : ℚ))).toNat costs.length ∧
      (∀ i ∈ elitistSelect cfg costs, i < costs.length) ∧
      (∀ i ∈ elitistSelect cfg costs, ∀ j, j < costs.length →
        j ∉ elitistSelect cfg costs → costs.getD i 0 ≤ costs.getD j 0)) ∧
    (cfg.ELITIST = true →
      update_pheremone cfg T paths qcosts n eIdx u v =
        update_pheremone cfg T paths qcosts n [] u v +
          bonusDeposit cfg qcosts n eIdx u v paths 0) ∧
    (cfg.ELITIST = false →
      update_pheremone cfg T paths qcosts n eIdx u v =
        update_pheremone cfg T paths qcosts n [] u v) := by
  refine ⟨⟨?_, ?_, ?_⟩, fun hE => ?_, fun hE => ?_⟩
  · simp [elitistSelect, List.length_take, List.length_mergeSort, List.length_range]
  · intro i hi
    exact mem_take_mergeSort_range (fun a => costs.getD a 0) costs.length _ i hi
  · intro i hi j hj hnj
    exact take_mergeSort_lowest (fun a => costs.getD a 0) costs.length _ i hi j hj hnj
  · rw [update_pheremone_apply, update_pheremone_apply,
      totalDeposit_elitist_split cfg hE qcosts n eIdx u v paths 0]
    ring
  · rw [update_pheremone_apply, update_pheremone_apply,
      totalDeposit_of_not_elitist cfg hE qcosts n eIdx u v paths 0]

/-- C6, witness: with elitism enabled, ant `0` (the single, lowest-cost ant)
is elitist, and the update equals the plain update plus its bonus deposits. -/
theorem C6_elitist_bonus_witness :
    update_pheremone cfgElitist (fun _ _ => (1 : ℚ)) [[0, 1, 2, 0]] [10] 3 [0] 0 1
      = update_pheremone cfgElitist (fun _ _ => (1 : ℚ)) [[0, 1, 2, 0]] [10] 3 [] 0 1
        + bonusDeposit cfgElitist [10] 3 [0] 0 1 [[0, 1, 2, 0]] 0 :=
  (C6_elitist_bonus cfgElitist [10] (fun _ _ => (1 : ℚ))
    [[0, 1, 2, 0]] [10] 3 [0] 0 1).2.1 rfl

/-- C10: `update_pheremone` preserves a zero diagonal when every path has
the expected cyclic length and no self-loop edge (adjacent entries are
distinct), and costs are nonzero (so the Python `1/cost` cannot raise):
evaporation scales `T[v][v] = 0` to `0` and all deposits land on edges
`(path[j], path[j+1])` with distinct endpoints. -/
theorem C10_diag_preserved (cfg : Config) (T : Mat) (paths : List (List ℕ))
    (costs : List ℚ) (n : ℕ) (eIdx : List ℕ)
    (hdiag : ∀ i, T i i = 0)
    (hcost : ∀ c ∈ costs, c ≠ 0)
    (hlen : ∀ p ∈ paths, p.length = n + 1)
    (hchain : ∀ p ∈ paths, List.Chain' (fun a b => a ≠ b) p)
    (v : ℕ) :
    update_pheremone cfg T paths costs n eIdx v v = 0 := by
  rw [update_pheremone_apply, hdiag, mul_zero, zero_add]
  apply totalDeposit_eq_zero
  intro p hp
  rw [edgeCount, List.length_eq_zero, List.filter_eq_nil_iff]
  intro j hj
  simp only [decide_eq_true_eq]
  intro hcontra
  have hjlt : j < n - 1 := List.mem_range.mp hj
  have hplen : p.length = n + 1 := hlen p hp
  have hj1 : j < p.length - 1 := by omega
  have hget := List.chain'_iff_get.mp (hchain p hp) j hj1
  have hja : j < p.length := by omega
  have hjb : j + 1 < p.length := by omega
  rw [List.get_eq_getElem, List.get_eq_getElem] at hget
  rw [List.getD_eq_getElem p 0 hja, List.getD_eq_getElem p 0 hjb] at hcontra
  exact hget (hcontra.1.trans hcontra.2.symm)

/-- C10, witness: a concrete zero-diagonal matrix, one cyclic path without
self-loops and a nonzero cost keep the diagonal entry `(0, 0)` at zero. -/
theorem C10_diag_preserved_witness :
    update_pheremone defaultConfig (fun i j => if i = j then (0 : ℚ) else 1)
      [[0, 1, 0]] [7] 2 [] 0 0 = 0 :=
  C10_diag_preserved defaultConfig (fun i j => if i = j then (0 : ℚ) else 1)
    [[0, 1, 0]] [7] 2 [] (fun i => by simp) (by norm_num) (by decide)
    (by
      intro p hp
      simp only [List.mem_singleton] at hp
      subst hp
      simp [List.chain'_cons]) 0

/-- C4: on a square distance matrix with positive off-diagonal entries the
heuristic matrix has exactly zero diagonal and off-diagonal entries
`round(Q / d[i][j], 4)`. -/
theorem C4_calculate_heuristic (cfg : Config) (d : ℕ → ℕ → ℤ) (n : ℕ)
    (hd : ∀ i j, i ≠ j → 0 < d i j) :
    (∀ i, i < n → calculate_heuristic cfg d n i i = 0) ∧
    (∀ i j, i < n → j < n → i ≠ j →
      calculate_heuristic cfg d n i j
        = ((round4 (cfg.Q / (d i j : ℚ)) : ℚ) : WithTop ℚ)) := by
  constructor
  · intro i hi
    simp [calculate_heuristic, hi]
  · intro i j hi hj hij
    have hdij : d i j ≠ 0 := ne_of_gt (hd i j hij)
    simp [calculate_heuristic, hi, hj, hij, pyDiv, hdij, round4T]

/-- C4, witness: a concrete 2x2 distance matrix with off-diagonal entries 2
has zero diagonal and off-diagonal heuristic `round(5/2, 4)`. -/
theorem C4_calculate_heuristic_witness :
    calculate_heuristic defaultConfig (fun i j => if i = j then 0 else 2) 2 0 0 = 0 ∧
    calculate_heuristic defaultConfig (fun i j => if i = j then 0 else 2) 2 0 1
      = ((round4 (defaultConfig.Q / ((2 : ℤ) : ℚ)) : ℚ) : WithTop ℚ) := by
  have h := C4_calculate_heuristic defaultConfig
    (fun i j => if i = j then (0 : ℤ) else 2) 2 (by intro i j hij; simp [hij])
  exact ⟨h.1 0 (by norm_num), h.2 0 1 (by norm_num) (by norm_num) (by norm_num)⟩

/-- C5, counterexample to the claim as stated: with a zero off-diagonal
distance, `calculate_heuristic` does not raise and does not abort — NumPy
integer-scalar true division by zero emits only a RuntimeWarning and yields
an IEEE infinity (modelled by `⊤`), so the function returns a matrix whose
entry `(0, 1)` is infinite, and the run proceeds. -/
theorem C5_counterexample :
    calculate_heuristic defaultConfig (fun _ _ => 0) 2 0 1 = (⊤ : WithTop ℚ) := by
  simp [calculate_heuristic, pyDiv, round4T]

/-- C5 (amended): if an off-diagonal distance `d[i][j]` is zero, the
heuristic construction does not fail: the NumPy division yields infinity
(with a RuntimeWarning only), `round(inf, 4)` is infinity, and the
function returns a matrix whose `(i, j)` entry is `⊤`. -/
theorem C5_zero_distance_inf (cfg : Config) (d : ℕ → ℕ → ℤ) (n i j : ℕ)
    (hi : i < n) (hj : j < n) (hij : i ≠ j) (hz : d i j = 0) :
    calculate_heuristic cfg d n i j = (⊤ : WithTop ℚ) := by
  simp [calculate_heuristic, hi, hj, hij, pyDiv, hz, round4T]

/-- C5, witness: the amended statement at a concrete all-zero distance
matrix on three vertices. -/
theorem C5_zero_distance_inf_witness :
    calculate_heuristic defaultConfig (fun _ _ => 0) 3 1 2 = (⊤ : WithTop ℚ) :=
  C5_zero_distance_inf defaultConfig (fun _ _ => 0) 3 1 2 (by norm_num)
    (by norm_num) (by norm_num) rfl

/-- Python's round lands on the floor or on the floor plus one. -/
theorem pyRound_cases (q : ℚ) : pyRound q = ⌊q⌋ ∨ pyRound q = ⌊q⌋ + 1 := by
  unfold pyRound
  split_ifs
  · exact Or.inl rfl
  · exact Or.inr rfl
  · exact Or.inl rfl
  · exact Or.inr rfl

/-- Python's round exceeds its argument minus one. -/
theorem pyRound_gt (q : ℚ) : q - 1 < (pyRound q : ℚ) := by
  have hf := Int.sub_one_lt_floor q
  rcases pyRound_cases q with h | h <;> rw [h] <;> push_cast <;> linarith

/-- C8: the returned statistic `round(avg / K * ITER)` differs from the
true per-tour average `avg / (K * ITER)` whenever at least two iterations
ran and the summed cost is positive. -/
theorem C8_avg_statistic_not_true_mean (cfg : Config) (avg : ℤ)
    (hI : 2 ≤ cfg.ITER) (hK : 1 ≤ cfg.K) (ha : 1 ≤ avg) :
    ((avgStatistic cfg avg : ℤ) : ℚ)
      ≠ (avg : ℚ) / ((cfg.K : ℚ) * (cfg.ITER : ℚ)) := by
  intro heq
  have hKQ : (1 : ℚ) ≤ (cfg.K : ℚ) := by exact_mod_cast hK
  have hIQ : (2 : ℚ) ≤ (cfg.ITER : ℚ) := by exact_mod_cast hI
  have haQ : (1 : ℚ) ≤ (avg : ℚ) := by exact_mod_cast ha
  have hKpos : (0 : ℚ) < (cfg.K : ℚ) := by linarith
  have hIpos : (0 : ℚ) < (cfg.ITER : ℚ) := by linarith
  have hApos : 0 < (avg : ℚ) / ((cfg.K : ℚ) * (cfg.ITER : ℚ)) :=
    div_pos (by linarith) (mul_pos hKpos hIpos)
  have hRpos : 0 < avgStatistic cfg avg := by
    have h0 : (0 : ℚ) < ((avgStatistic cfg avg : ℤ) : ℚ) := by
      rw [heq]
      exact hApos
    exact_mod_cast h0
  have hR1 : (1 : ℚ) ≤ ((avgStatistic cfg avg : ℤ) : ℚ) := by exact_mod_cast hRpos
  rw [heq] at hR1
  have hgt := pyRound_gt ((avg : ℚ) / (cfg.K : ℚ) * (cfg.ITER : ℚ))
  have hdef : avgStatistic cfg avg
      = pyRound ((avg : ℚ) / (cfg.K : ℚ) * (cfg.ITER : ℚ)) := rfl
  rw [← hdef, heq] at hgt
  have hx : (avg : ℚ) / (cfg.K : ℚ) * (cfg.ITER : ℚ)
      = (avg : ℚ) / ((cfg.K : ℚ) * (cfg.ITER : ℚ))
        * ((cfg.ITER : ℚ) * (cfg.ITER : ℚ)) := by
    field_simp
    ring
  rw [hx] at hgt
  have h4 : (4 : ℚ) ≤ (cfg.ITER : ℚ) * (cfg.ITER : ℚ) := by nlinarith
  have hscale : (avg : ℚ) / ((cfg.K : ℚ) * (cfg.ITER : ℚ)) * 4
      ≤ (avg : ℚ) / ((cfg.K : ℚ) * (cfg.ITER : ℚ))
        * ((cfg.ITER : ℚ) * (cfg.ITER : ℚ)) :=
    mul_le_mul_of_nonneg_left h4 (le_of_lt hApos)
  linarith

/-- C8, witness: with the module's own configuration (`K = 50`,
`ITER = 200`) and summed cost `100`, the returned statistic is not the true
per-tour average. -/
theorem C8_avg_statistic_not_true_mean_witness :
    ((avgStatistic defaultConfig 100 : ℤ) : ℚ)
      ≠ ((100 : ℤ) : ℚ) / ((defaultConfig.K : ℚ) * (defaultConfig.ITER : ℚ)) :=
  C8_avg_statistic_not_true_mean defaultConfig 100 (by decide) (by decide)
    (by norm_num)

/-- Selection returns an index from the walked list. -/
theorem cumulativeSelect_mem (P : ℕ → ℚ) (r : ℚ) :
    ∀ (l : List ℕ) (CP : ℚ) (i : ℕ),
      cumulativeSelect P r l CP = some i → i ∈ l := by
  intro l
  induction l with
  | nil => intro CP i h; simp [cumulativeSelect] at h
  | cons a rest ih =>
    intro CP i h
    simp only [cumulativeSelect] at h
    split at h
    · simp at h
      simp [h]
    · exact List.mem_cons_of_mem a (ih _ i h)

/-- When the accumulated mass is still short of the draw, the selected
index carries strictly positive probability: the selection fires at the
first index where the cumulative sum reaches the draw. -/
theorem cumulativeSelect_pos (P : ℕ → ℚ) (r : ℚ) :
    ∀ (l : List ℕ) (CP : ℚ) (i : ℕ), CP < r →
      cumulativeSelect P r l CP = some i → 0 < P i := by
  intro l
  induction l with
  | nil => intro CP i _ h; simp [cumulativeSelect] at h
  | cons a rest ih =>
    intro CP i hlt h
    simp only [cumulativeSelect] at h
    split at h
    · rename_i hfire
      simp at h
      subst h
      linarith
    · rename_i hfire
      push_neg at hfire
      exact ih _ i hfire h

/-- On a nonempty list whose total mass reaches the draw, the selection
fires. -/
theorem cumulativeSelect_isSome (P : ℕ → ℚ) (r : ℚ) :
    ∀ (l : List ℕ) (CP : ℚ), l ≠ [] → r ≤ CP + (l.map P).sum →
      (cumulativeSelect P r l CP).isSome := by
  intro l
  induction l with
  | nil => intro CP h; exact absurd rfl h
  | cons a rest ih =>
    intro CP _ hsum
    simp only [cumulativeSelect]
    by_cases hfire : r ≤ CP + P a
    · rw [if_pos hfire]
      simp
    · rw [if_neg hfire]
      push_neg at hfire
      cases rest with
      | nil =>
        simp only [List.map_cons, List.map_nil, List.sum_cons, List.sum_nil,
          add_zero] at hsum
        exact absurd hsum (not_le.mpr hfire)
      | cons b bs =>
        apply ih _ (by simp)
        simp only [List.map_cons, List.sum_cons] at hsum ⊢
        linarith

/-- The transition step only selects vertices below `numVertices`. -/
theorem nextCity_lt (cfg : Config) (T H : Mat) (curr n : ℕ) (r : ℚ) (c : ℕ)
    (h : nextCity cfg T H curr n r = some c) : c < n := by
  simp only [nextCity] at h
  split at h
  · exact absurd h (by simp)
  · exact List.mem_range.mp (cumulativeSelect_mem _ _ _ _ _ h)

/-- With a strictly positive draw and `BETA ≥ 1`, the transition step never
selects an already-visited vertex: visited columns of the masked heuristic
are zero, so their desirability and probability are zero, and the selection
fires only on an index with strictly positive probability. -/
theorem nextCity_unvisited (cfg : Config) (T H1 : Mat) (path : List ℕ)
    (curr n : ℕ) (r : ℚ) (c : ℕ) (hbeta : 1 ≤ cfg.BETA) (hr : 0 < r)
    (h : nextCity cfg T (maskedH H1 path) curr n r = some c) : c ∉ path := by
  intro hmem
  simp only [nextCity] at h
  split at h
  · exact absurd h (by simp)
  · have hpos := cumulativeSelect_pos _ _ _ _ _ hr h
    have hmask : maskedH H1 path curr c = 0 := by simp [maskedH, hmem]
    rw [hmask, zero_pow (by omega : cfg.BETA ≠ 0)] at hpos
    simp at hpos

/-- Every completed construction has length `numVertices + 1` and vertices
below `numVertices` (given the starting vertex and the carried path are in
range); this holds for arbitrary draw streams. -/
theorem buildPath_shape (cfg : Config) (T H1 : Mat) (n start : ℕ)
    (hstart : start < n) :
    ∀ (draws : List ℚ) (path : List ℕ) (curr : ℕ) (p : List ℕ)
      (rest : List ℚ), (∀ x ∈ path, x < n) →
      buildPath cfg T H1 n start draws path curr = some (p, rest) →
      p.length = n + 1 ∧ (∀ x ∈ p, x < n) := by
  intro draws
  induction draws with
  | nil =>
    intro path curr p rest hb hres
    simp only [buildPath] at hres
    split at hres
    · rename_i hlen
      simp only [Option.some.injEq, Prod.mk.injEq] at hres
      obtain ⟨rfl, rfl⟩ := hres
      refine ⟨by simp [hlen], ?_⟩
      intro x hx
      rcases List.mem_append.mp hx with hmem | hmem
      · exact hb x hmem
      · simp only [List.mem_singleton] at hmem
        subst hmem
        exact hstart
    · exact absurd hres (by simp)
  | cons rdraw rs ih =>
    intro path curr p rest hb hres
    simp only [buildPath] at hres
    split at hres
    · rename_i hlen
      simp only [Option.some.injEq, Prod.mk.injEq] at hres
      obtain ⟨rfl, rfl⟩ := hres
      refine ⟨by simp [hlen], ?_⟩
      intro x hx
      rcases List.mem_append.mp hx with hmem | hmem
      · exact hb x hmem
      · simp only [List.mem_singleton] at hmem
        subst hmem
        exact hstart
    · cases hnc : nextCity cfg T (maskedH H1 path) curr n rdraw with
      | none =>
        rw [hnc] at hres
        exact ih path curr p rest hb hres
      | some c =>
        rw [hnc] at hres
        have hc : c < n := nextCity_lt cfg T (maskedH H1 path) curr n rdraw c hnc
        refine ih (path ++ [c]) c p rest ?_ hres
        intro x hx
        rcases List.mem_append.mp hx with hmem | hmem
        · exact hb x hmem
        · simp only [List.mem_singleton] at hmem
          subst hmem
          exact hc

/-- When every draw is strictly positive and `BETA ≥ 1`, a completed
construction extends the carried duplicate-free path to a duplicate-free
list of `numVertices` in-range vertices, closed by the starting vertex. -/
theorem buildPath_valid (cfg : Config) (T H1 : Mat) (n start : ℕ)
    (hbeta : 1 ≤ cfg.BETA) :
    ∀ (draws : List ℚ) (path : List ℕ) (curr : ℕ) (p : List ℕ)
      (rest : List ℚ),
      (∀ r ∈ draws, 0 < r) → path.Nodup → (∀ x ∈ path, x < n) →
      path ≠ [] → path.head? = some start →
      buildPath cfg T H1 n start draws path curr = some (p, rest) →
      ∃ q, p = q ++ [start] ∧ q.length = n ∧ q.Nodup ∧ (∀ x ∈ q, x < n) ∧
        q.head? = some start := by
  intro draws
  induction draws with
  | nil =>
    intro path curr p rest _ hnd hb hne hh hres
    simp only [buildPath] at hres
    split at hres
    · rename_i hlen
      simp only [Option.some.injEq, Prod.mk.injEq] at hres
      obtain ⟨rfl, rfl⟩ := hres
      exact ⟨path, rfl, hlen, hnd, hb, hh⟩
    · exact absurd hres (by simp)
  | cons rdraw rs ih =>
    intro path curr p rest hdr hnd hb hne hh hres
    simp only [buildPath] at hres
    split at hres
    · rename_i hlen
      simp only [Option.some.injEq, Prod.mk.injEq] at hres
      obtain ⟨rfl, rfl⟩ := hres
      exact ⟨path, rfl, hlen, hnd, hb, hh⟩
    · have hdr' : ∀ r ∈ rs, 0 < r := fun r hr => hdr r (List.mem_cons_of_mem _ hr)
      cases hnc : nextCity cfg T (maskedH H1 path) curr n rdraw with
      | none =>
        rw [hnc] at hres
        exact ih path curr p rest hdr' hnd hb hne hh hres
      | some c =>
        rw [hnc] at hres
        have hc : c < n := nextCity_lt cfg T (maskedH H1 path) curr n rdraw c hnc
        have hcnv : c ∉ path := nextCity_unvisited cfg T H1 path curr n rdraw c
          hbeta (hdr rdraw (by simp)) hnc
        refine ih (path ++ [c]) c p rest hdr' ?_ ?_ (by simp) ?_ hres
        · simp [List.nodup_append, hnd]
          intro hmem
          exact hcnv hmem
        · intro x hx
          rcases List.mem_append.mp hx with hmem | hmem
          · exact hb x hmem
          · simp only [List.mem_singleton] at hmem
            subst hmem
            exact hc
        · rw [List.head?_append_of_ne_nil _ hne]
          exact hh

/-- C2, counterexample to the claim as stated: `random.random()` can return
exactly `0.0`, and with draw `0` the cumulative selection fires at index `0`
even though its probability is zero (vertex `0` is already visited).  On two
vertices with all-ones pheromone, the ant starting at `0` produces the path
`[0, 0, 0]`, whose interior `[0, 0]` is not a permutation of `{0, 1}`. -/
theorem C2_counterexample :
    constructPath defaultConfig (fun _ _ => (1 : ℚ))
        (fun i j => if i = j then (0 : ℚ) else 1) 2 0 [0]
      = some ([0, 0, 0], []) ∧
    ¬ (([0, 0, 0] : List ℕ).dropLast.Perm (List.range 2)) := by
  constructor
  · have hnc : nextCity defaultConfig (fun _ _ => (1 : ℚ))
        (maskedH (fun i j => if i = j then (0 : ℚ) else 1) [0]) 0 2 0
        = some 0 := by
      simp only [nextCity, maskedH, defaultConfig]
      norm_num [List.range_succ, cumulativeSelect]
    simp [constructPath, buildPath, hnc]
  · decide

/-- C2 (amended): for every graph with at least two vertices, every
in-range starting vertex, `BETA ≥ 1`, and every sequence of strictly
positive random draws (`random.random()` can also return exactly `0.0`,
which breaks the property), a completed construction has length
`numVertices + 1`, starts and ends at the starting vertex, and its interior
`numVertices` elements are a permutation of `{0, …, numVertices - 1}`. -/
theorem C2_path_valid (cfg : Config) (T H1 : Mat) (n start : ℕ)
    (draws : List ℚ) (p : List ℕ) (rest : List ℚ)
    (hn : 2 ≤ n) (hstart : start < n) (hbeta : 1 ≤ cfg.BETA)
    (hdraws : ∀ r ∈ draws, 0 < r)
    (hres : constructPath cfg T H1 n start draws = some (p, rest)) :
    p.length = n + 1 ∧ p.head? = some start ∧ p.getLast? = some start ∧
      p.dropLast.Perm (List.range n) := by
  obtain ⟨q, rfl, hqlen, hqnd, hqb, hqh⟩ := buildPath_valid cfg T H1 n start
    hbeta draws [start] start p rest hdraws (by simp)
    (by
      intro x hx
      simp only [List.mem_singleton] at hx
      subst hx
      exact hstart)
    (by simp) (by simp) hres
  have hqne : q ≠ [] := by
    intro hq
    rw [hq] at hqlen
    simp at hqlen
    omega
  refine ⟨by simp [hqlen], ?_, List.getLast?_concat q, ?_⟩
  · rw [List.head?_append_of_ne_nil _ hqne]
    exact hqh
  · rw [List.dropLast_concat]
    have hsub : q ⊆ List.range n := fun x hx => List.mem_range.mpr (hqb x hx)
    exact (hqnd.subperm hsub).perm_of_length_le
      (by simp [hqlen, List.length_range])

/-- C2, witness: on two vertices with all-ones pheromone and the strictly
positive draw `3/4`, the ant starting at `0` produces the valid tour
`[0, 1, 0]`. -/
theorem C2_path_valid_witness :
    ([0, 1, 0] : List ℕ).length = 2 + 1 ∧
      ([0, 1, 0] : List ℕ).head? = some 0 ∧
      ([0, 1, 0] : List ℕ).getLast? = some 0 ∧
      ([0, 1, 0] : List ℕ).dropLast.Perm (List.range 2) := by
  have hnc : nextCity defaultConfig (fun _ _ => (1 : ℚ))
      (maskedH (fun i j => if i = j then (0 : ℚ) else 1) [0]) 0 2 (3 / 4)
      = some 1 := by
    simp only [nextCity, maskedH, defaultConfig]
    norm_num [List.range_succ, cumulativeSelect]
  have hrun : constructPath defaultConfig (fun _ _ => (1 : ℚ))
      (fun i j => if i = j then (0 : ℚ) else 1) 2 0 [3 / 4]
      = some ([0, 1, 0], []) := by
    simp [constructPath, buildPath, hnc]
  exact C2_path_valid defaultConfig (fun _ _ => (1 : ℚ))
    (fun i j => if i = j then (0 : ℚ) else 1) 2 0 [3 / 4] [0, 1, 0] []
    (by norm_num) (by norm_num) (by decide)
    (by
      intro r hr
      simp only [List.mem_singleton] at hr
      subst hr
      norm_num)
    hrun

/-- C3: evaluation of the code at the failing input.  With an all-zero
pheromone matrix every desirability `N[j]` is zero, the normalisation
denominator is zero, and — contrary to the code's own comment
"Adding a small value to negate the div by 0 error potential", which
promises a guard that is absent — NumPy computes `P = N / 0` as NaN without
raising, every comparison `CP >= rand` is false, no city is ever selected
(first conjunct) and the construction loop makes no progress on any number
of draws (second conjunct: the stream is exhausted with no city chosen,
modelling the source's infinite loop).  There is no uniform fallback choice
among the remaining unvisited vertices. -/
theorem C3_zero_desirability_no_selection :
    nextCity defaultConfig (fun _ _ => (0 : ℚ))
        (maskedH (fun i j => if i = j then (0 : ℚ) else 1) [0]) 0 2 (1 / 2)
      = none ∧
    constructPath defaultConfig (fun _ _ => (0 : ℚ))
        (fun i j => if i = j then (0 : ℚ) else 1) 2 0 [1 / 2, 1 / 2, 1 / 2]
      = none := by
  have hnc : nextCity defaultConfig (fun _ _ => (0 : ℚ))
      (maskedH (fun i j => if i = j then (0 : ℚ) else 1) [0]) 0 2 (2⁻¹)
      = none := by
    simp only [nextCity, maskedH, defaultConfig]
    norm_num [List.range_succ]
  constructor
  · rw [one_div]
    exact hnc
  · simp [constructPath, buildPath, hnc]

/-- Best-tracker updates never touch the worst-tracker fields. -/
theorem updateBest_worse (st : AcoState) (b : ℤ) (bp : List ℕ) :
    (updateBest st b bp).worsePathCost = st.worsePathCost ∧
      (updateBest st b bp).worstPath = st.worstPath := by
  unfold updateBest
  split <;> simp

/-- Pairs of the cost/path zip carry the cost of their own path. -/
theorem zip_map_cost_fst {α β : Type} (f : α → β) :
    ∀ (l : List α) (pr : β × α), pr ∈ (l.map f).zip l → pr.1 = f pr.2 := by
  intro l
  induction l with
  | nil => intro pr h; simp at h
  | cons a t ih =>
    intro pr h
    simp only [List.map_cons, List.zip_cons_cons, List.mem_cons] at h
    rcases h with rfl | h
    · rfl
    · exact ih pr h

/-- Second components of zip members belong to the second list. -/
theorem snd_mem_of_mem_zip {α β : Type} {pr : α × β} {l1 : List α}
    {l2 : List β} (h : pr ∈ l1.zip l2) : pr.2 ∈ l2 := by
  obtain ⟨a, b⟩ := pr
  exact (List.of_mem_zip h).2

/-- A successful colony iteration consumes exactly one starting city per
ant, and every produced path has cyclic length and in-range vertices. -/
theorem runAnts_shape (cfg : Config) (T H1 : Mat) (n : ℕ) :
    ∀ (k : ℕ) (starts : List ℕ) (draws : List ℚ) (ps : List (List ℕ))
      (starts2 : List ℕ) (draws2 : List ℚ),
      (∀ s ∈ starts, s < n) →
      runAnts cfg T H1 n k starts draws = some (ps, starts2, draws2) →
      starts2 = starts.drop k ∧
        ∀ p ∈ ps, p.length = n + 1 ∧ ∀ x ∈ p, x < n := by
  intro k
  induction k with
  | zero =>
    intro starts draws ps s2 d2 _ hres
    simp only [runAnts, Option.some.injEq, Prod.mk.injEq] at hres
    obtain ⟨rfl, rfl, rfl⟩ := hres
    exact ⟨by simp, by simp⟩
  | succ k ih =>
    intro starts draws ps s2 d2 hs hres
    cases starts with
    | nil => simp [runAnts] at hres
    | cons s starts' =>
      simp only [runAnts] at hres
      cases hcp : constructPath cfg T H1 n s draws with
      | none =>
        rw [hcp] at hres
        simp at hres
      | some pr =>
        obtain ⟨p, draws'⟩ := pr
        rw [hcp] at hres
        dsimp only at hres
        cases hra : runAnts cfg T H1 n k starts' draws' with
        | none =>
          rw [hra] at hres
          simp at hres
        | some tri =>
          obtain ⟨ps', s3, d3⟩ := tri
          rw [hra] at hres
          simp only [Option.some.injEq, Prod.mk.injEq] at hres
          obtain ⟨rfl, rfl, rfl⟩ := hres
          have hs' : ∀ x ∈ starts', x < n :=
            fun x hx => hs x (List.mem_cons_of_mem _ hx)
          obtain ⟨hdrop, hall⟩ := ih starts' draws' ps' s3 d3 hs' hra
          have hshape0 := buildPath_shape cfg T H1 n s (hs s (by simp)) draws
            [s] s p draws'
            (by
              intro y hy
              simp only [List.mem_singleton] at hy
              subst hy
              exact hs y (by simp))
            hcp
          refine ⟨by simp [hdrop, List.drop_succ_cons], ?_⟩
          intro p' hp'
          rcases List.mem_cons.mp hp' with rfl | hmem
          · exact hshape0
          · exact hall p' hmem

/-- Worst-tracker update is a no-op unless the new cost strictly exceeds
the running worst cost. -/
theorem updateWorst_le (st : AcoState) (w : ℤ) (wp : List ℕ)
    (h : ¬(w > st.worsePathCost)) : updateWorst st w wp = st := by
  unfold updateWorst
  rw [if_neg h]

/-- Tracker composition of one iteration keeps the worst fields when the
iteration's worst cost does not exceed the running worst cost. -/
theorem updateWorst_updateBest_fields (st1 : AcoState) (b w : ℤ)
    (bp wp : List ℕ) (hle : ¬(w > st1.worsePathCost)) :
    (updateWorst (updateBest st1 b bp) w wp).worsePathCost = st1.worsePathCost ∧
      (updateWorst (updateBest st1 b bp) w wp).worstPath = st1.worstPath := by
  obtain ⟨h1, h2⟩ := updateBest_worse st1 b bp
  rw [updateWorst_le _ _ _ (by rw [h1]; exact hle)]
  exact ⟨h1, h2⟩

/-- Observed-cost bound along the actual run: for each iteration of the
main loop in sequence (with the pheromone matrix the iteration hands to
the next one), every tour the colony produces has nonzero cost at most
`10`.  Nonzero observed costs delimit exactly the region where Python's
`delta = 1/pathCosts[i]` in `update_pheremone` executes without raising
ZeroDivisionError — a real run that observes a zero cost crashes there and
never returns, so conditioning on nonzero observed costs loses no run that
returns. -/
def toursBounded (cfg : Config) (d : ℕ → ℕ → ℤ) (H1 : Mat) (n : ℕ) :
    ℕ → Mat → List ℕ → List ℚ → Prop
  | 0, _, _, _ => True
  | m + 1, T, starts, draws =>
    ∀ allPaths starts2 draws2,
      runAnts cfg T H1 n cfg.K starts draws = some (allPaths, starts2, draws2) →
      (∀ p ∈ allPaths, calculate_path_cost d p ≠ 0 ∧
        calculate_path_cost d p ≤ 10) ∧
      toursBounded cfg d H1 n m
        (update_pheremone cfg T allPaths
          ((allPaths.map (calculate_path_cost d)).map fun (c : ℤ) => (c : ℚ)) n
          (if cfg.ELITIST then
            elitistSelect cfg (allPaths.map (calculate_path_cost d)) else []))
        starts2 draws2

/-- Through any number of iterations, if every tour cost observed by the
run is nonzero and at most the running worst sentinel `10`, the worst
tracker fields never change. -/
theorem acoLoop_worst_preserved (cfg : Config) (d : ℕ → ℕ → ℤ) (H1 : Mat)
    (n : ℕ) :
    ∀ (m : ℕ) (T : Mat) (st : AcoState) (starts : List ℕ) (draws : List ℚ)
      (st' : AcoState),
      toursBounded cfg d H1 n m T starts draws →
      st.worsePathCost = 10 → st.worstPath = [] →
      acoLoop cfg d H1 n m T st starts draws = some st' →
      st'.worsePathCost = 10 ∧ st'.worstPath = [] := by
  intro m
  induction m with
  | zero =>
    intro T st starts draws st' _ hw hwp hres
    simp only [acoLoop, Option.some.injEq] at hres
    subst hres
    exact ⟨hw, hwp⟩
  | succ m ih =>
    intro T st starts draws st' htb hw hwp hres
    simp only [acoLoop] at hres
    cases hit : acoIteration cfg d H1 n T st starts draws with
    | none =>
      rw [hit] at hres
      simp at hres
    | some quad =>
      obtain ⟨T2, st2, s2, d2⟩ := quad
      rw [hit] at hres
      dsimp only at hres
      simp only [acoIteration] at hit
      cases hra : runAnts cfg T H1 n cfg.K starts draws with
      | none =>
        rw [hra] at hit
        simp at hit
      | some tri =>
        obtain ⟨allPaths, starts2, draws2⟩ := tri
        rw [hra] at hit
        dsimp only at hit
        simp only [toursBounded] at htb
        obtain ⟨hbound, htb2⟩ := htb allPaths starts2 draws2 hra
        cases hms : ((allPaths.map (calculate_path_cost d)).zip allPaths).mergeSort
            (fun a b => decide (a.1 ≤ b.1)) with
        | nil =>
          rw [hms] at hit
          simp at hit
        | cons hd tl =>
          rw [hms] at hit
          dsimp only at hit
          simp only [Option.some.injEq, Prod.mk.injEq] at hit
          obtain ⟨rfl, rfl, rfl, rfl⟩ := hit
          have hperm2 : (hd :: tl).Perm
              ((allPaths.map (calculate_path_cost d)).zip allPaths) := by
            rw [← hms]
            exact List.mergeSort_perm _ _
          have hwmem : (hd :: tl).getLast (List.cons_ne_nil hd tl)
              ∈ (hd :: tl) := List.getLast_mem _
          have hwzip := hperm2.mem_iff.mp hwmem
          have hwcost := zip_map_cost_fst (calculate_path_cost d) allPaths
            ((hd :: tl).getLast (List.cons_ne_nil hd tl)) hwzip
          have hwpath : ((hd :: tl).getLast (List.cons_ne_nil hd tl)).2
              ∈ allPaths := snd_mem_of_mem_zip hwzip
          have hwle : ¬(((hd :: tl).getLast (List.cons_ne_nil hd tl)).1 > 10) := by
            rw [hwcost]
            have := (hbound _ hwpath).2
            omega
          obtain ⟨hw2, hwp2⟩ := updateWorst_updateBest_fields
            ⟨st.bestPathCost, st.worsePathCost, st.worstPath, st.bestPath,
              st.avg + (allPaths.map (calculate_path_cost d)).sum⟩
            hd.1 ((hd :: tl).getLast (List.cons_ne_nil hd tl)).1 hd.2
            ((hd :: tl).getLast (List.cons_ne_nil hd tl)).2
            (by
              show ¬(((hd :: tl).getLast (List.cons_ne_nil hd tl)).1
                > st.worsePathCost)
              rw [hw]
              exact hwle)
          exact ih _ _ starts2 draws2 st' htb2 (by rw [hw2]; exact hw)
            (by rw [hwp2]; exact hwp) hres

/-- C9: the trackers start from the sentinels of lines 154..157 — best cost
`1000000000`, worst cost `10`, empty worst path — and update only under
strict comparison (`<` for best, `>` for worst); consequently, when every
tour cost observed across the whole run is at most the worst sentinel `10`
(and nonzero, the region where the Python update cannot raise and a run
can return at all — see `toursBounded`), the returned worst path is the
empty list and the returned worst cost is the sentinel `10` itself. -/
theorem C9_worst_sentinel (cfg : Config) (d : ℕ → ℕ → ℤ) (H1 : Mat)
    (n : ℕ) (T : Mat) (starts : List ℕ) (draws : List ℚ) (res : RunResult) :
    initState.bestPathCost = 1000000000 ∧ initState.worsePathCost = 10 ∧
      initState.worstPath = [] ∧
      (∀ st b bp, ¬(b < st.bestPathCost) → updateBest st b bp = st) ∧
      (∀ st w wp, ¬(w > st.worsePathCost) → updateWorst st w wp = st) ∧
      (ant_colony_optimisation cfg d H1 n T starts draws = some res →
        toursBounded cfg d H1 n cfg.ITER T starts draws →
        res.worsePathCost = 10 ∧ res.worstPath = []) := by
  refine ⟨rfl, rfl, rfl, ?_, ?_, fun hres htb => ?_⟩
  · intro st b bp h
    unfold updateBest
    rw [if_neg h]
  · intro st w wp h
    exact updateWorst_le st w wp h
  · simp only [ant_colony_optimisation] at hres
    cases hloop : acoLoop cfg d H1 n cfg.ITER T initState starts draws with
    | none =>
      rw [hloop] at hres
      simp at hres
    | some st =>
      rw [hloop] at hres
      dsimp only at hres
      simp only [Option.some.injEq] at hres
      subst hres
      obtain ⟨hw, hwp⟩ := acoLoop_worst_preserved cfg d H1 n cfg.ITER T
        initState starts draws st htb rfl rfl hloop
      exact ⟨hw, hwp⟩

/-- Configuration with a single ant and a single iteration (the Python
module with `K = 1`, `ITER = 1`), used by the concrete whole-run
witnesses. -/
def cfgSmall : Config :=
  ⟨1 / 2, 5, 1, 3, 1, 1, false, 1 / 5⟩

/-- C9, witness: a concrete one-ant one-iteration run with unit
off-diagonal distances — the single tour `[0, 1, 0]` costs `2`, which is
nonzero (so the Python update divides safely) and at most `10` — returns
worst cost `10` and an empty worst path. -/
theorem C9_worst_sentinel_witness :
    (⟨2, [0, 1, 0], 10, [], 2⟩ : RunResult).worsePathCost = 10 ∧
      (⟨2, [0, 1, 0], 10, [], 2⟩ : RunResult).worstPath = ([] : List ℕ) := by
  have hnc : nextCity cfgSmall (fun _ _ => (1 : ℚ))
      (maskedH (fun i j => if i = j then (0 : ℚ) else 1) [0]) 0 2 (3 / 4)
      = some 1 := by
    simp only [nextCity, maskedH, cfgSmall]
    norm_num [List.range_succ, cumulativeSelect]
  have hcp : constructPath cfgSmall (fun _ _ => (1 : ℚ))
      (fun i j => if i = j then (0 : ℚ) else 1) 2 0 [3 / 4]
      = some ([0, 1, 0], []) := by
    simp [constructPath, buildPath, hnc]
  have hra : runAnts cfgSmall (fun _ _ => (1 : ℚ))
      (fun i j => if i = j then (0 : ℚ) else 1) 2 1 [0] [3 / 4]
      = some ([[0, 1, 0]], [], []) := by
    simp [runAnts, hcp]
  have hK : cfgSmall.K = 1 := rfl
  have hI : cfgSmall.ITER = 1 := rfl
  have hE : cfgSmall.ELITIST = false := rfl
  have hcost2 : calculate_path_cost (fun i j => if i = j then (0 : ℤ) else 1)
      [0, 1, 0] = 2 := by decide
  have haco : ant_colony_optimisation cfgSmall
      (fun i j => if i = j then (0 : ℤ) else 1)
      (fun i j => if i = j then (0 : ℚ) else 1) 2 (fun _ _ => (1 : ℚ))
      [0] [3 / 4] = some ⟨2, [0, 1, 0], 10, [], 2⟩ := by
    simp only [ant_colony_optimisation, acoLoop, acoIteration, hK, hI, hE, hra]
    norm_num [initState, hcost2, updateBest, updateWorst,
      avgStatistic, pyRound, hK, List.mergeSort_singleton, cfgSmall]
  have htb : toursBounded cfgSmall (fun i j => if i = j then (0 : ℤ) else 1)
      (fun i j => if i = j then (0 : ℚ) else 1) 2 cfgSmall.ITER
      (fun _ _ => (1 : ℚ)) [0] [3 / 4] := by
    rw [hI]
    intro allPaths s2 d2 hra2
    rw [hK] at hra2
    rw [hra] at hra2
    simp only [Option.some.injEq, Prod.mk.injEq] at hra2
    obtain ⟨rfl, rfl, rfl⟩ := hra2
    refine ⟨?_, trivial⟩
    intro p hp
    simp only [List.mem_singleton] at hp
    subst hp
    rw [hcost2]
    constructor
    · norm_num
    · norm_num
  exact (C9_worst_sentinel cfgSmall (fun i j => if i = j then (0 : ℤ) else 1)
    (fun i j => if i = j then (0 : ℚ) else 1) 2 (fun _ _ => (1 : ℚ))
    [0] [3 / 4] ⟨2, [0, 1, 0], 10, [], 2⟩).2.2.2.2.2 haco htb

/-- A path shorter than the vertex count misses some in-range vertex. -/
theorem exists_unvisited (path : List ℕ) (n : ℕ) (h : path.length < n) :
    ∃ j, j < n ∧ j ∉ path := by
  by_contra hc
  push_neg at hc
  have hsub : (List.range n).toFinset ⊆ path.toFinset := by
    intro x hx
    simp only [List.mem_toFinset, List.mem_range] at hx ⊢
    exact hc x hx
  have h1 : (List.range n).toFinset.card ≤ path.toFinset.card :=
    Finset.card_le_card hsub
  have h2 : (List.range n).toFinset.card = n := by
    rw [List.toFinset_card_of_nodup (List.nodup_range n), List.length_range]
  have h3 : path.toFinset.card ≤ path.length := List.toFinset_card_le path
  omega

/-- Sums of pointwise quotients pull the common divisor out. -/
theorem sum_map_div (l : List ℕ) (f : ℕ → ℚ) (c : ℚ) :
    (l.map fun j => f j / c).sum = (l.map f).sum / c := by
  induction l with
  | nil => simp
  | cons a t ih => simp [ih, add_div]

/-- With nonnegative pheromone and heuristic matrices that are strictly
positive off the diagonal, a construction step from a partial path always
selects a city (the desirability of any unvisited vertex is positive, so
the normalisation denominator is nonzero and the full cumulative mass is 1,
reached by any draw at most 1). -/
theorem nextCity_succeeds (cfg : Config) (T H1 : Mat) (path : List ℕ)
    (curr n : ℕ) (r : ℚ)
    (hT0 : ∀ i j, 0 ≤ T i j) (hT1 : ∀ i j, i ≠ j → 0 < T i j)
    (hH0 : ∀ i j, 0 ≤ H1 i j) (hH1 : ∀ i j, i ≠ j → 0 < H1 i j)
    (hcurr : curr ∈ path) (hlen : path.length < n) (hr : r ≤ 1) :
    ∃ c, nextCity cfg T (maskedH H1 path) curr n r = some c := by
  obtain ⟨j0, hj0n, hj0p⟩ := exists_unvisited path n hlen
  have hcne : curr ≠ j0 := fun h => hj0p (h ▸ hcurr)
  have hNnn : ∀ j, 0 ≤ T curr j ^ cfg.ALPHA * maskedH H1 path curr j ^ cfg.BETA := by
    intro j
    refine mul_nonneg (pow_nonneg (hT0 curr j) _) (pow_nonneg ?_ _)
    by_cases hjp : j ∈ path
    · simp [maskedH, hjp]
    · simp [maskedH, hjp]
      exact hH0 curr j
  have hN0 : 0 < T curr j0 ^ cfg.ALPHA * maskedH H1 path curr j0 ^ cfg.BETA := by
    refine mul_pos (pow_pos (hT1 curr j0 hcne) _) (pow_pos ?_ _)
    simp only [maskedH, hj0p, if_false]
    exact hH1 curr j0 hcne
  have hden : 0 < ((List.range n).map
      fun j => T curr j ^ cfg.ALPHA * maskedH H1 path curr j ^ cfg.BETA).sum := by
    refine lt_of_lt_of_le hN0 (List.single_le_sum ?_ _ ?_)
    · intro x hx
      obtain ⟨j, _, rfl⟩ := List.mem_map.mp hx
      exact hNnn j
    · exact List.mem_map_of_mem _ (List.mem_range.mpr hj0n)
  have hne : List.range n ≠ [] := by
    simp only [ne_eq, List.range_eq_nil]
    omega
  have hsome := cumulativeSelect_isSome
    (fun j => (T curr j ^ cfg.ALPHA * maskedH H1 path curr j ^ cfg.BETA) /
      ((List.range n).map
        fun j => T curr j ^ cfg.ALPHA * maskedH H1 path curr j ^ cfg.BETA).sum)
    r (List.range n) 0 hne
    (by
      rw [zero_add, sum_map_div, div_self (ne_of_gt hden)]
      exact hr)
  simp only [nextCity]
  rw [if_neg (ne_of_gt hden)]
  exact Option.isSome_iff_exists.mp hsome

/-- Under the positivity conditions, an ant construction with draws in
`(0, 1]` succeeds, consumes exactly one draw per missing vertex, and
produces a valid tour. -/
theorem buildPath_success (cfg : Config) (T H1 : Mat) (n start : ℕ)
    (hbeta : 1 ≤ cfg.BETA)
    (hT0 : ∀ i j, 0 ≤ T i j) (hT1 : ∀ i j, i ≠ j → 0 < T i j)
    (hH0 : ∀ i j, 0 ≤ H1 i j) (hH1 : ∀ i j, i ≠ j → 0 < H1 i j) :
    ∀ (draws : List ℚ) (path : List ℕ) (curr : ℕ),
      (∀ r ∈ draws, 0 < r ∧ r ≤ 1) →
      curr ∈ path → path.Nodup → (∀ x ∈ path, x < n) → path ≠ [] →
      path.head? = some start → path.length ≤ n →
      n - path.length ≤ draws.length →
      ∃ q, buildPath cfg T H1 n start draws path curr
          = some (q ++ [start], draws.drop (n - path.length)) ∧
        q.length = n ∧ q.Nodup ∧ (∀ x ∈ q, x < n) ∧ q.head? = some start := by
  intro draws
  induction draws with
  | nil =>
    intro path curr _ _ hnd hb _ hh hlen hdlen
    have hplen : path.length = n := by
      simp only [List.length_nil] at hdlen
      omega
    refine ⟨path, ?_, hplen, hnd, hb, hh⟩
    simp only [buildPath]
    rw [if_pos hplen, hplen]
    simp
  | cons r rs ih =>
    intro path curr hdw hcur hnd hb hne hh hlen hdlen
    by_cases hplen : path.length = n
    · refine ⟨path, ?_, hplen, hnd, hb, hh⟩
      simp only [buildPath]
      rw [if_pos hplen, hplen]
      simp
    · have hlt : path.length < n := lt_of_le_of_ne hlen hplen
      obtain ⟨c, hc⟩ := nextCity_succeeds cfg T H1 path curr n r hT0 hT1 hH0 hH1
        hcur hlt (hdw r (by simp)).2
      have hcn : c < n := nextCity_lt _ _ _ _ _ _ _ hc
      have hcnv : c ∉ path := nextCity_unvisited _ _ _ _ _ _ _ _ hbeta
        (hdw r (by simp)).1 hc
      obtain ⟨q, hrun, hqlen, hqnd, hqb, hqh⟩ := ih (path ++ [c]) c
        (fun r' hr' => hdw r' (by simp [hr']))
        (by simp)
        (by
          simp [List.nodup_append, hnd]
          intro hmem
          exact hcnv hmem)
        (by
          intro x hx
          rcases List.mem_append.mp hx with hmem | hmem
          · exact hb x hmem
          · simp only [List.mem_singleton] at hmem
            subst hmem
            exact hcn)
        (by simp)
        (by
          rw [List.head?_append_of_ne_nil _ hne]
          exact hh)
        (by
          simp only [List.length_append, List.length_singleton]
          omega)
        (by
          simp only [List.length_append, List.length_singleton,
            List.length_cons] at hdlen ⊢
          omega)
      refine ⟨q, ?_, hqlen, hqnd, hqb, hqh⟩
      simp only [buildPath]
      rw [if_neg hplen, hc]
      dsimp only
      have harith : n - path.length = (n - (path.length + 1)) + 1 := by omega
      rw [harith, List.drop_succ_cons]
      have hlen2 : (path ++ [c]).length = path.length + 1 := by simp
      rw [hlen2] at hrun
      exact hrun

/-- Members named by `getLast?` belong to the list. -/
theorem mem_of_getLast? {α : Type} {l : List α} {x : α}
    (h : l.getLast? = some x) : x ∈ l := by
  obtain ⟨hne, rfl⟩ := List.mem_getLast?_eq_getLast (by exact h)
  exact List.getLast_mem hne

/-- A duplicate-free tour body of length at least two, headed by the start,
closed by the start, has pairwise-distinct adjacent vertices. -/
theorem tour_chain_ne (q : List ℕ) (s : ℕ) (hnd : q.Nodup)
    (hh : q.head? = some s) (hlen : 2 ≤ q.length) :
    List.Chain' (fun a b => a ≠ b) (q ++ [s]) := by
  rw [List.chain'_append]
  refine ⟨List.Pairwise.chain' hnd, by simp, ?_⟩
  intro x hx y hy
  simp only [List.head?_cons, Option.mem_def, Option.some.injEq] at hy
  subst hy
  cases q with
  | nil => simp at hlen
  | cons a q' =>
    simp only [List.head?_cons, Option.some.injEq] at hh
    cases q' with
    | nil => simp at hlen
    | cons b q'' =>
      have hx' : x ∈ (b :: q'').getLast? := by
        simpa [List.getLast?_cons_cons] using hx
      have hmem : x ∈ b :: q'' := mem_of_getLast? hx'
      intro hxs
      rw [hxs, ← hh] at hmem
      exact (List.nodup_cons.mp hnd).1 hmem

/-- Tour costs over a matrix with off-diagonal entries at least one are
nonnegative when adjacent vertices differ. -/
theorem cost_nonneg (d : ℕ → ℕ → ℤ) (hd : ∀ i j, i ≠ j → 1 ≤ d i j) :
    ∀ p : List ℕ, List.Chain' (fun a b => a ≠ b) p →
      0 ≤ calculate_path_cost d p := by
  intro p
  induction p with
  | nil => intro; simp [calculate_path_cost]
  | cons a t ih =>
    intro hch
    cases t with
    | nil => simp [calculate_path_cost]
    | cons b t' =>
      have hstep : calculate_path_cost d (a :: b :: t')
          = d a b + calculate_path_cost d (b :: t') := by
        simp [calculate_path_cost]
      rw [hstep]
      have h1 : 1 ≤ d a b := hd a b (List.chain'_cons.mp hch).1
      have h2 : 0 ≤ calculate_path_cost d (b :: t') :=
        ih (List.chain'_cons.mp hch).2
      omega

/-- Tour costs over a matrix with off-diagonal entries at least one are
strictly positive for paths of length at least two with distinct adjacent
vertices. -/
theorem cost_pos (d : ℕ → ℕ → ℤ) (hd : ∀ i j, i ≠ j → 1 ≤ d i j)
    (p : List ℕ) (hch : List.Chain' (fun a b => a ≠ b) p)
    (hlen : 2 ≤ p.length) : 1 ≤ calculate_path_cost d p := by
  cases p with
  | nil => simp at hlen
  | cons a t =>
    cases t with
    | nil => simp at hlen
    | cons b t' =>
      have hstep : calculate_path_cost d (a :: b :: t')
          = d a b + calculate_path_cost d (b :: t') := by
        simp [calculate_path_cost]
      rw [hstep]
      have h1 : 1 ≤ d a b := hd a b (List.chain'_cons.mp hch).1
      have h2 : 0 ≤ calculate_path_cost d (b :: t') :=
        cost_nonneg d hd _ (List.chain'_cons.mp hch).2
      omega

/-- Per-edge deposits are nonnegative for nonnegative costs and a
nonnegative elitist factor. -/
theorem depositAmount_nonneg (cfg : Config) (cost : ℚ) (b : Bool)
    (hc : 0 ≤ cost) (hEF : 0 ≤ cfg.ELITISTFACTOR) :
    0 ≤ depositAmount cfg cost b := by
  unfold depositAmount
  have h1 : 0 ≤ 1 / cost := by positivity
  split
  · exact add_nonneg h1 (mul_nonneg hc hEF)
  · simpa using h1

/-- The total deposit on any entry is nonnegative. -/
theorem totalDeposit_nonneg (cfg : Config) (costs : List ℚ) (n : ℕ)
    (eIdx : List ℕ) (u v : ℕ) (hEF : 0 ≤ cfg.ELITISTFACTOR)
    (hc : ∀ c ∈ costs, 0 ≤ c) :
    ∀ (paths : List (List ℕ)) (i : ℕ),
      0 ≤ totalDeposit cfg costs n eIdx u v paths i := by
  intro paths
  induction paths with
  | nil => intro i; simp [totalDeposit]
  | cons p ps ih =>
    intro i
    simp only [totalDeposit]
    have hci : 0 ≤ costs.getD i 0 := by
      by_cases hi : i < costs.length
      · rw [List.getD_eq_getElem _ _ hi]
        exact hc _ (List.getElem_mem hi)
      · rw [List.getD_eq_default _ _ (by omega)]
    have hda := depositAmount_nonneg cfg _ (decide (i ∈ eIdx)) hci hEF
    have hcount : (0 : ℚ) ≤ (edgeCount p u v (n - 1) : ℚ) := by positivity
    have := ih (i + 1)
    nlinarith

/-- `update_pheremone` keeps the pheromone matrix nonnegative with a
strictly positive off-diagonal, given `RHO < 1`, a nonnegative elitist
factor and nonnegative costs. -/
theorem update_pheremone_pos (cfg : Config) (T : Mat)
    (paths : List (List ℕ)) (costs : List ℚ) (n : ℕ) (eIdx : List ℕ)
    (hRHO : cfg.RHO < 1) (hEF : 0 ≤ cfg.ELITISTFACTOR)
    (hc : ∀ c ∈ costs, 0 ≤ c)
    (hT0 : ∀ i j, 0 ≤ T i j) (hT1 : ∀ i j, i ≠ j → 0 < T i j) :
    (∀ i j, 0 ≤ update_pheremone cfg T paths costs n eIdx i j) ∧
      (∀ i j, i ≠ j → 0 < update_pheremone cfg T paths costs n eIdx i j) := by
  have h1 : (0 : ℚ) < 1 - cfg.RHO := by linarith
  constructor
  · intro i j
    rw [update_pheremone_apply]
    exact add_nonneg (mul_nonneg h1.le (hT0 i j))
      (totalDeposit_nonneg cfg costs n eIdx i j hEF hc paths 0)
  · intro i j hij
    rw [update_pheremone_apply]
    exact add_pos_of_pos_of_nonneg (mul_pos h1 (hT1 i j hij))
      (totalDeposit_nonneg cfg costs n eIdx i j hEF hc paths 0)

/-- Under the positivity conditions, a colony of `k` ants succeeds,
consuming exactly `k` starting cities and `k * (numVertices - 1)` draws,
and every produced path is a tour with distinct adjacent vertices. -/
theorem runAnts_success (cfg : Config) (T H1 : Mat) (n : ℕ)
    (hbeta : 1 ≤ cfg.BETA) (hn : 2 ≤ n)
    (hT0 : ∀ i j, 0 ≤ T i j) (hT1 : ∀ i j, i ≠ j → 0 < T i j)
    (hH0 : ∀ i j, 0 ≤ H1 i j) (hH1 : ∀ i j, i ≠ j → 0 < H1 i j) :
    ∀ (k : ℕ) (starts : List ℕ) (draws : List ℚ),
      (∀ s ∈ starts, s < n) → (∀ r ∈ draws, 0 < r ∧ r ≤ 1) →
      k ≤ starts.length → k * (n - 1) ≤ draws.length →
      ∃ ps, runAnts cfg T H1 n k starts draws
          = some (ps, starts.drop k, draws.drop (k * (n - 1))) ∧
        ps.length = k ∧
        ∀ p ∈ ps, List.Chain' (fun a b => a ≠ b) p ∧ p.length = n + 1 ∧
          ∀ x ∈ p, x < n := by
  intro k
  induction k with
  | zero =>
    intro starts draws _ _ _ _
    exact ⟨[], by simp [runAnts], by simp, by simp⟩
  | succ k ih =>
    intro starts draws hs hdw hks hkd
    cases starts with
    | nil => simp at hks
    | cons s starts' =>
      have hsn : s < n := hs s (by simp)
      have hn1 : n - 1 ≤ draws.length := by
        have h1 : n - 1 ≤ (k + 1) * (n - 1) := Nat.le_mul_of_pos_left _ (by omega)
        omega
      obtain ⟨q, hrun, hqlen, hqnd, hqb, hqh⟩ := buildPath_success cfg T H1 n s
        hbeta hT0 hT1 hH0 hH1 draws [s] s hdw (by simp) (by simp)
        (by
          intro x hx
          simp only [List.mem_singleton] at hx
          subst hx
          exact hsn)
        (by simp) (by simp) (by simp; omega)
        (by simp; omega)
      have hcp : constructPath cfg T H1 n s draws
          = some (q ++ [s], draws.drop (n - 1)) := hrun
      have hdd : ∀ r ∈ draws.drop (n - 1), 0 < r ∧ r ≤ 1 :=
        fun r hr => hdw r (List.drop_subset _ _ hr)
      have hmul : (k + 1) * (n - 1) = k * (n - 1) + (n - 1) := by ring
      obtain ⟨ps, hrest, hpslen, hall⟩ := ih starts' (draws.drop (n - 1))
        (fun x hx => hs x (by simp [hx])) hdd
        (by simp at hks; omega)
        (by
          rw [List.length_drop]
          omega)
      refine ⟨(q ++ [s]) :: ps, ?_, by simp [hpslen], ?_⟩
      · simp only [runAnts]
        rw [hcp]
        dsimp only
        rw [hrest]
        dsimp only
        rw [List.drop_drop, List.drop_succ_cons]
        have harith : (n - 1) + k * (n - 1) = (k + 1) * (n - 1) := by ring
        rw [harith]
      · intro p hp
        rcases List.mem_cons.mp hp with rfl | hmem
        · refine ⟨tour_chain_ne q s hqnd hqh (by omega), by simp [hqlen], ?_⟩
          intro x hx
          rcases List.mem_append.mp hx with hmem | hmem
          · exact hqb x hmem
          · simp only [List.mem_singleton] at hmem
            subst hmem
            exact hsn
        · exact hall p hmem

/-- Under the positivity conditions, one full iteration succeeds, consumes
exactly `K` starting cities and `K * (numVertices - 1)` draws, and the
updated pheromone matrix keeps the positivity invariant. -/
theorem acoIteration_success (cfg : Config) (d : ℕ → ℕ → ℤ) (H1 : Mat)
    (n : ℕ) (hbeta : 1 ≤ cfg.BETA) (hn : 2 ≤ n) (hK : 1 ≤ cfg.K)
    (hRHO : cfg.RHO < 1) (hEF : 0 ≤ cfg.ELITISTFACTOR)
    (hd1 : ∀ i j, i ≠ j → 1 ≤ d i j)
    (hH0 : ∀ i j, 0 ≤ H1 i j) (hH1 : ∀ i j, i ≠ j → 0 < H1 i j)
    (T : Mat) (st : AcoState) (starts : List ℕ) (draws : List ℚ)
    (hT0 : ∀ i j, 0 ≤ T i j) (hT1 : ∀ i j, i ≠ j → 0 < T i j)
    (hs : ∀ s ∈ starts, s < n) (hdw : ∀ r ∈ draws, 0 < r ∧ r ≤ 1)
    (hks : cfg.K ≤ starts.length) (hkd : cfg.K * (n - 1) ≤ draws.length) :
    ∃ T2 st2, acoIteration cfg d H1 n T st starts draws
        = some (T2, st2, starts.drop cfg.K, draws.drop (cfg.K * (n - 1))) ∧
      (∀ i j, 0 ≤ T2 i j) ∧ (∀ i j, i ≠ j → 0 < T2 i j) := by
  obtain ⟨ps, hra, hpslen, hall⟩ := runAnts_success cfg T H1 n hbeta hn hT0 hT1
    hH0 hH1 cfg.K starts draws hs hdw hks hkd
  have hcnn : ∀ c ∈ (ps.map (calculate_path_cost d)).map fun (c : ℤ) => (c : ℚ),
      0 ≤ c := by
    intro c hc
    simp only [List.mem_map] at hc
    obtain ⟨z, ⟨p, hp, rfl⟩, rfl⟩ := hc
    obtain ⟨hch, hplen, _⟩ := hall p hp
    have h1 := cost_pos d hd1 p hch (by omega)
    have h0 : (0 : ℤ) ≤ calculate_path_cost d p := by omega
    exact_mod_cast h0
  have hupd := update_pheremone_pos cfg T ps
    ((ps.map (calculate_path_cost d)).map fun (c : ℤ) => (c : ℚ)) n
    (if cfg.ELITIST = true then elitistSelect cfg (ps.map (calculate_path_cost d))
      else [])
    hRHO hEF hcnn hT0 hT1
  cases hms : ((ps.map (calculate_path_cost d)).zip ps).mergeSort
      (fun a b => decide (a.1 ≤ b.1)) with
  | nil =>
    exfalso
    have h1 := @List.length_mergeSort (ℤ × List ℕ)
      (fun a b => decide (a.1 ≤ b.1))
      ((ps.map (calculate_path_cost d)).zip ps)
    rw [hms] at h1
    simp only [List.length_nil, List.length_zip, List.length_map] at h1
    omega
  | cons hd tl =>
    refine ⟨update_pheremone cfg T ps
        ((ps.map (calculate_path_cost d)).map fun (c : ℤ) => (c : ℚ)) n
        (if cfg.ELITIST then
          elitistSelect cfg (ps.map (calculate_path_cost d)) else []),
      updateWorst
        (updateBest
          ⟨st.bestPathCost, st.worsePathCost, st.worstPath, st.bestPath,
            st.avg + (ps.map (calculate_path_cost d)).sum⟩
          hd.1 hd.2)
        ((hd :: tl).getLast (List.cons_ne_nil hd tl)).1
        ((hd :: tl).getLast (List.cons_ne_nil hd tl)).2,
      ?_, hupd.1, hupd.2⟩
    simp only [acoIteration]
    rw [hra]
    dsimp only
    rw [hms]

/-- Under the positivity conditions, `m` iterations of the main loop
succeed, given `m * K` starting cities and `m * K * (numVertices - 1)`
draws in `(0, 1]`. -/
theorem acoLoop_success (cfg : Config) (d : ℕ → ℕ → ℤ) (H1 : Mat) (n : ℕ)
    (hbeta : 1 ≤ cfg.BETA) (hn : 2 ≤ n) (hK : 1 ≤ cfg.K)
    (hRHO : cfg.RHO < 1) (hEF : 0 ≤ cfg.ELITISTFACTOR)
    (hd1 : ∀ i j, i ≠ j → 1 ≤ d i j)
    (hH0 : ∀ i j, 0 ≤ H1 i j) (hH1 : ∀ i j, i ≠ j → 0 < H1 i j) :
    ∀ (m : ℕ) (T : Mat) (st : AcoState) (starts : List ℕ) (draws : List ℚ),
      (∀ i j, 0 ≤ T i j) → (∀ i j, i ≠ j → 0 < T i j) →
      (∀ s ∈ starts, s < n) → (∀ r ∈ draws, 0 < r ∧ r ≤ 1) →
      m * cfg.K ≤ starts.length → m * (cfg.K * (n - 1)) ≤ draws.length →
      ∃ st', acoLoop cfg d H1 n m T st starts draws = some st' := by
  intro m
  induction m with
  | zero =>
    intro T st starts draws _ _ _ _ _ _
    exact ⟨st, by simp [acoLoop]⟩
  | succ m ih =>
    intro T st starts draws hT0 hT1 hs hdw hms hmd
    have hK1 : cfg.K ≤ starts.length := by
      have h1 : cfg.K ≤ (m + 1) * cfg.K := Nat.le_mul_of_pos_left _ (by omega)
      omega
    have hK2 : cfg.K * (n - 1) ≤ draws.length := by
      have h1 : cfg.K * (n - 1) ≤ (m + 1) * (cfg.K * (n - 1)) :=
        Nat.le_mul_of_pos_left _ (by omega)
      omega
    obtain ⟨T2, st2, hit, hT20, hT21⟩ := acoIteration_success cfg d H1 n hbeta
      hn hK hRHO hEF hd1 hH0 hH1 T st starts draws hT0 hT1 hs hdw hK1 hK2
    have hmul1 : (m + 1) * cfg.K = m * cfg.K + cfg.K := by ring
    have hmul2 : (m + 1) * (cfg.K * (n - 1))
        = m * (cfg.K * (n - 1)) + cfg.K * (n - 1) := by ring
    obtain ⟨st', hloop⟩ := ih T2 st2 (starts.drop cfg.K)
      (draws.drop (cfg.K * (n - 1))) hT20 hT21
      (fun x hx => hs x (List.drop_subset _ _ hx))
      (fun r hr => hdw r (List.drop_subset _ _ hr))
      (by rw [List.length_drop]; omega)
      (by rw [List.length_drop]; omega)
    refine ⟨st', ?_⟩
    simp only [acoLoop]
    rw [hit]
    dsimp only
    exact hloop

/-- C7, counterexample to the claim as stated: with an all-zero pheromone
matrix, every construction step has zero total desirability, the NumPy
normalisation yields NaN and the inner `while` loop of the very first ant
never selects a city: the run never completes an iteration and never
returns (modelled by `none` once the draw stream is exhausted), refuting
"always terminates … no early exit or failure state once started". -/
theorem C7_counterexample :
    ant_colony_optimisation cfgSmall (fun _ _ => (0 : ℤ))
        (fun i j => if i = j then (0 : ℚ) else 1) 2 (fun _ _ => (0 : ℚ))
        [0] [1 / 2] = none := by
  have hnc : nextCity cfgSmall (fun _ _ => (0 : ℚ))
      (maskedH (fun i j => if i = j then (0 : ℚ) else 1) [0]) 0 2 (2⁻¹)
      = none := by
    simp only [nextCity, maskedH, cfgSmall]
    norm_num [List.range_succ]
  have hcp : constructPath cfgSmall (fun _ _ => (0 : ℚ))
      (fun i j => if i = j then (0 : ℚ) else 1) 2 0 [2⁻¹] = none := by
    simp [constructPath, buildPath, hnc]
  have hra : runAnts cfgSmall (fun _ _ => (0 : ℚ))
      (fun i j => if i = j then (0 : ℚ) else 1) 2 1 [0] [2⁻¹] = none := by
    simp [runAnts, hcp]
  have hK : cfgSmall.K = 1 := rfl
  have hI : cfgSmall.ITER = 1 := rfl
  simp [ant_colony_optimisation, acoLoop, acoIteration, hK, hI, hra]

/-- C7 (amended): provided every transition step can select a city —
guaranteed when the pheromone and heuristic matrices are nonnegative and
strictly positive off the diagonal, distances are at least `1` off the
diagonal, `RHO < 1`, `ELITISTFACTOR ≥ 0`, `BETA ≥ 1`, `K ≥ 1`,
`numVertices ≥ 2`, and all draws lie in `(0, 1]` — the run executes exactly
`ITER` iterations of exactly `K` ant constructions each, consuming exactly
`ITER * K` starting-city draws and `ITER * K * (numVertices - 1)`
transition draws, and returns the `RunResult`; without such a guarantee the
construction loop can spin forever (see the counterexample). -/
theorem C7_terminates_under_positive_desirability (cfg : Config)
    (d : ℕ → ℕ → ℤ) (H1 T : Mat) (n : ℕ) (starts : List ℕ) (draws : List ℚ)
    (hbeta : 1 ≤ cfg.BETA) (hn : 2 ≤ n) (hK : 1 ≤ cfg.K)
    (hRHO : cfg.RHO < 1) (hEF : 0 ≤ cfg.ELITISTFACTOR)
    (hd1 : ∀ i j, i ≠ j → 1 ≤ d i j)
    (hH0 : ∀ i j, 0 ≤ H1 i j) (hH1 : ∀ i j, i ≠ j → 0 < H1 i j)
    (hT0 : ∀ i j, 0 ≤ T i j) (hT1 : ∀ i j, i ≠ j → 0 < T i j)
    (hs : ∀ s ∈ starts, s < n) (hdw : ∀ r ∈ draws, 0 < r ∧ r ≤ 1)
    (hls : starts.length = cfg.ITER * cfg.K)
    (hld : draws.length = cfg.ITER * (cfg.K * (n - 1))) :
    ∃ res, ant_colony_optimisation cfg d H1 n T starts draws = some res := by
  obtain ⟨st', hloop⟩ := acoLoop_success cfg d H1 n hbeta hn hK hRHO hEF hd1
    hH0 hH1 cfg.ITER T initState starts draws hT0 hT1 hs hdw
    (le_of_eq hls.symm) (le_of_eq hld.symm)
  refine ⟨⟨st'.bestPathCost, st'.bestPath, st'.worsePathCost, st'.worstPath,
    avgStatistic cfg st'.avg⟩, ?_⟩
  simp only [ant_colony_optimisation]
  rw [hloop]

/-- C7, witness: a concrete one-ant one-iteration run with positive
pheromone and heuristic matrices and unit distances terminates and returns
a result. -/
theorem C7_terminates_witness :
    ∃ res, ant_colony_optimisation cfgSmall
        (fun i j => if i = j then (0 : ℤ) else 1)
        (fun i j => if i = j then (0 : ℚ) else 1) 2
        (fun i j => if i = j then (0 : ℚ) else 1) [0] [3 / 4] = some res :=
  C7_terminates_under_positive_desirability cfgSmall
    (fun i j => if i = j then (0 : ℤ) else 1)
    (fun i j => if i = j then (0 : ℚ) else 1)
    (fun i j => if i = j then (0 : ℚ) else 1) 2 [0] [3 / 4]
    (by decide) (by decide) (by decide)
    (by norm_num [cfgSmall]) (by norm_num [cfgSmall])
    (by
      intro i j hij
      simp [hij])
    (by
      intro i j
      by_cases h : i = j
      · simp [h]
      · simp [h])
    (by
      intro i j hij
      simp [hij])
    (by
      intro i j
      by_cases h : i = j
      · simp [h]
      · simp [h])
    (by
      intro i j hij
      simp [hij])
    (by
      intro s hsm
      simp only [List.mem_singleton] at hsm
      subst hsm
      norm_num)
    (by
      intro r hr
      simp only [List.mem_singleton] at hr
      subst hr
      norm_num)
    rfl rfl
